import Mathlib

/-!
Verification of the `evenio` component registry (`src/component.rs`) and the
`derive_query` code generator (`evenio_macros/src/query.rs`).

The registry is built on the crate's generational slot map (`slot_map.rs`),
which is not part of the sources under verification; it is modelled from the
specification of the generational slot allocator (spec §4.1, §9): free-list
reuse, per-slot monotonically increasing generation counters, a reserved null
sentinel, and an allocator-exhausted failure.  Everything in the `Components`
namespace is translated directly from `component.rs`.
-/

namespace Evenio

/-- The number of distinct slot indices available to the allocator.  Index
`keyCapacity` itself (the largest `u32`) is reserved for the null sentinel and
is never assigned to a live slot. -/
def keyCapacity : Nat := 2 ^ 32 - 1

/-- Modelled from the spec: a generational key, an opaque
(dense index, generation) pair.  Mirrors `slot_map::Key`. -/
structure Key where
  index : Nat
  generation : Nat
deriving DecidableEq

/-- Modelled from the spec: the reserved null sentinel, never assigned to a
live slot (live slots have `index < keyCapacity`). -/
def Key.NULL : Key := ⟨keyCapacity, 1⟩

/-- A slot of the slot map: its current generation counter and its value
(`none` when the slot is vacant). -/
structure Slot (α : Type) where
  generation : Nat
  value : Option α
deriving DecidableEq

/-- Modelled from the spec: the generational slot allocator (`slot_map.rs`):
stable identifiers with free-list reuse and monotonically increasing per-slot
generation counters. -/
structure SlotMap (α : Type) where
  slots : List (Slot α)
  freeList : List Nat
deriving DecidableEq

namespace SlotMap

variable {α : Type}

/-- An empty slot map. -/
def new : SlotMap α := ⟨[], []⟩

/-- The generation counter currently stored at slot `i` (0 when no such slot
exists yet). -/
def slotGen (m : SlotMap α) (i : Nat) : Nat :=
  match m.slots[i]? with
  | some s => s.generation
  | none => 0

/-- Modelled from the spec: insert a value (built from the key it will
receive) into a free slot, reusing a freed slot when one is available.
Returns `none` exactly when the allocator is exhausted. -/
def insert_with (m : SlotMap α) (f : Key → α) : Option (Key × SlotMap α) :=
  match m.freeList with
  | i :: rest =>
    let k : Key := ⟨i, m.slotGen i⟩
    some (k, ⟨m.slots.set i ⟨m.slotGen i, some (f k)⟩, rest⟩)
  | [] =>
    if m.slots.length < keyCapacity then
      let k : Key := ⟨m.slots.length, 1⟩
      some (k, ⟨m.slots ++ [⟨1, some (f k)⟩], []⟩)
    else
      none

/-- Modelled from the spec: fetch the value stored under a key; returns
`none` when the key is stale or unknown. -/
def get (m : SlotMap α) (k : Key) : Option α :=
  match m.slots[k.index]? with
  | some s => if s.generation = k.generation then s.value else none
  | none => none

/-- Modelled from the spec: remove the value stored under a key, freeing its
slot for reuse with an incremented generation.  On a stale or unknown key the
map is returned unchanged together with `none`. -/
def remove (m : SlotMap α) (k : Key) : Option α × SlotMap α :=
  match m.slots[k.index]? with
  | some s =>
    if s.generation = k.generation then
      match s.value with
      | some v =>
        (some v, ⟨m.slots.set k.index ⟨s.generation + 1, none⟩, k.index :: m.freeList⟩)
      | none => (none, m)
    else (none, m)
  | none => (none, m)

/-- Modelled from the spec: fetch the key and value of the slot at a dense
index; `none` when the slot is vacant or out of range. -/
def get_by_index (m : SlotMap α) (i : Nat) : Option (Key × α) :=
  match m.slots[i]? with
  | some s =>
    match s.value with
    | some v => some (⟨i, s.generation⟩, v)
    | none => none
  | none => none

/-- Modelled from the spec: apply a function to the value stored at a dense
index (`get_by_index_mut` used read-modify-write); no-op when vacant. -/
def modifyAt (m : SlotMap α) (i : Nat) (f : α → α) : SlotMap α :=
  match m.slots[i]? with
  | some s =>
    match s.value with
    | some v => ⟨m.slots.set i ⟨s.generation, some (f v)⟩, m.freeList⟩
    | none => m
  | none => m

/-- Apply a function to every occupied slot's value. -/
def mapValues (m : SlotMap α) (f : α → α) : SlotMap α :=
  ⟨m.slots.map (fun s => ⟨s.generation, s.value.map f⟩), m.freeList⟩

/-- Well-formedness of a slot map: every free-list entry points to an
existing, vacant slot, and the free list has no duplicates. -/
def WF (m : SlotMap α) : Prop :=
  (∀ i ∈ m.freeList, ∃ s, m.slots[i]? = some s ∧ s.value = none) ∧
    m.freeList.Nodup

/-- A key is live when `get` succeeds on it. -/
def live (m : SlotMap α) (k : Key) : Prop := (m.get k).isSome

/-- A key is stale when its slot still exists but has moved past the key's
generation. -/
def stale (m : SlotMap α) (k : Key) : Prop :=
  k.index < m.slots.length ∧ k.generation < m.slotGen k.index

end SlotMap

/-! ## The component registry, translated from `src/component.rs`.

`TypeId` values are abstract tokens modelled as naturals; `Layout` keeps the
size and alignment; the `DropFn` function pointer is an abstract token. -/

/-- A `core::any::TypeId`, modelled as an abstract token. -/
abbrev TypeId := Nat

/-- A `core::alloc::Layout`: size and alignment of a component. -/
structure Layout where
  size : Nat
  align : Nat
deriving DecidableEq

/-- A `DropFn` function pointer, modelled as an abstract token. -/
abbrev DropFn := Nat

/-- A `TargetedEventId`, modelled as an abstract token. -/
abbrev TargetedEventId := Nat

/-- An `ArchetypeIdx`, modelled as a natural. -/
abbrev ArchetypeIdx := Nat

/-- `ComponentId`: lightweight identifier for a component type, an index plus
a generation count (a newtype over `slot_map::Key`). -/
structure ComponentId where
  key : Key
deriving DecidableEq

namespace ComponentId

/-- The component ID which never identifies a live component. -/
def NULL : ComponentId := ⟨Key.NULL⟩

/-- The index of this ID (`ComponentId::index`). -/
def index (id : ComponentId) : Nat := id.key.index

/-- The generation count of this ID (`ComponentId::generation`). -/
def generation (id : ComponentId) : Nat := id.key.generation

end ComponentId

/-- `ComponentInfo`: metadata for a component (`component.rs`).
`member_of` is the set of archetypes that have this component as one of its
columns, modelled as a duplicate-free list of archetype indices. -/
structure ComponentInfo where
  name : String
  id : ComponentId
  type_id : Option TypeId
  layout : Layout
  drop : DropFn
  mutability : Bool
  insert_events : List TargetedEventId
  remove_events : List TargetedEventId
  member_of : List ArchetypeIdx
deriving DecidableEq

/-- `ComponentDescriptor`: data needed to create a new component. -/
structure ComponentDescriptor where
  name : String
  type_id : Option TypeId
  layout : Layout
  drop : DropFn
  mutability : Bool
deriving DecidableEq

/-- Association-list lookup modelling `TypeIdMap::get`. -/
def lookupTid (l : List (TypeId × ComponentId)) (tid : TypeId) : Option ComponentId :=
  match l with
  | [] => none
  | (t, id) :: rest => if t = tid then some id else lookupTid rest tid

/-- Association-list deletion modelling `TypeIdMap::remove` (type-id keys are
unique, so dropping all matches removes exactly the stored binding). -/
def removeTid (l : List (TypeId × ComponentId)) (tid : TypeId) :
    List (TypeId × ComponentId) :=
  match l with
  | [] => []
  | (t, id) :: rest =>
    if t = tid then removeTid rest tid else (t, id) :: removeTid rest tid

/-- `Components`: metadata for all the components in a world; a slot map of
infos plus the `by_type_id` dedup index. -/
structure Components where
  infos : SlotMap ComponentInfo
  by_type_id : List (TypeId × ComponentId)
deriving DecidableEq

namespace Components

/-- `Components::new`: an empty registry. -/
def new : Components := ⟨SlotMap.new, []⟩

/-- The `ComponentInfo` record `Components::add` builds for a fresh key. -/
def mkInfo (desc : ComponentDescriptor) (k : Key) : ComponentInfo :=
  { name := desc.name
    id := ⟨k⟩
    type_id := desc.type_id
    layout := desc.layout
    drop := desc.drop
    mutability := desc.mutability
    insert_events := []
    remove_events := []
    member_of := [] }

/-- `Components::add`: if the descriptor has a type id and a component with
that type id already exists, returns its id and `false`; otherwise inserts a
new `ComponentInfo` and returns its id and `true`.  The `none` result models
the `panic!("too many components")` abort on allocator exhaustion. -/
def add (c : Components) (desc : ComponentDescriptor) :
    Option ((ComponentId × Bool) × Components) :=
  match desc.type_id with
  | some tid =>
    match lookupTid c.by_type_id tid with
    | some id => some ((id, false), c)
    | none =>
      match c.infos.insert_with (fun k => mkInfo desc k) with
      | some (k, infos2) =>
        some ((⟨k⟩, true), ⟨infos2, (tid, (⟨k⟩ : ComponentId)) :: c.by_type_id⟩)
      | none => none
  | none =>
    match c.infos.insert_with (fun k => mkInfo desc k) with
    | some (k, infos2) => some ((⟨k⟩, true), ⟨infos2, c.by_type_id⟩)
    | none => none

/-- `Components::remove`: removes a component by id, returning its info and
dropping its `by_type_id` binding; on an invalid id returns `none` with the
registry unchanged. -/
def remove (c : Components) (id : ComponentId) : Option ComponentInfo × Components :=
  match c.infos.remove id.key with
  | (some info, infos2) =>
    let bt :=
      match info.type_id with
      | some tid => removeTid c.by_type_id tid
      | none => c.by_type_id
    (some info, ⟨infos2, bt⟩)
  | (none, _) => (none, c)

/-- `Components::get`: the info of the given component, `none` if the ID is
invalid. -/
def get (c : Components) (id : ComponentId) : Option ComponentInfo :=
  c.infos.get id.key

/-- `Components::get_by_index`. -/
def get_by_index (c : Components) (idx : Nat) : Option ComponentInfo :=
  (c.infos.get_by_index idx).map (fun p => p.2)

/-- `Components::get_by_type_id`: looks the type id up in `by_type_id`, then
fetches the info by id.  The source unwraps that fetch with
`unwrap_unchecked`; the inner `none` branch here marks the spot where that
unchecked unwrap would be undefined behavior. -/
def get_by_type_id (c : Components) (tid : TypeId) : Option ComponentInfo :=
  match lookupTid c.by_type_id tid with
  | some id => c.get id
  | none => none

/-- `Components::contains`. -/
def contains (c : Components) (id : ComponentId) : Bool :=
  (c.get id).isSome

/-- `Index<ComponentId> for Components`: the `none` result models the
`panic!` on an invalid id. -/
def indexById (c : Components) (id : ComponentId) : Option ComponentInfo :=
  match c.get id with
  | some info => some info
  | none => none

/-- `Index<ComponentIdx> for Components`: the `none` result models the
`panic!` on an invalid index. -/
def indexByIdx (c : Components) (idx : Nat) : Option ComponentInfo :=
  match c.get_by_index idx with
  | some info => some info
  | none => none

/-- `Index<TypeId> for Components`: the `none` result models the `panic!` on
an unregistered type id. -/
def indexByTypeId (c : Components) (tid : TypeId) : Option ComponentInfo :=
  match c.get_by_type_id tid with
  | some info => some info
  | none => none

/-- `Components::get_by_index_mut` used as read-modify-write on one info. -/
def modifyByIndex (c : Components) (idx : Nat) (f : ComponentInfo → ComponentInfo) :
    Components :=
  ⟨c.infos.modifyAt idx f, c.by_type_id⟩

/-- Well-formedness of the registry's slot map. -/
def WF (c : Components) : Prop := c.infos.WF

end Components

/-- The allocator is exhausted: no freed slot to reuse and no index left. -/
def SlotMap.exhausted {α : Type} (m : SlotMap α) : Prop :=
  m.freeList = [] ∧ keyCapacity ≤ m.slots.length

/-- A registry-level operation: `Components::add` or `Components::remove`. -/
inductive RegOp where
  | add (desc : ComponentDescriptor)
  | remove (id : ComponentId)
deriving DecidableEq

/-- Apply one registry operation (an aborted `add` leaves no next state; the
registry value is kept so that traces stay total). -/
def Components.applyOp (c : Components) : RegOp → Components
  | .add d =>
    match c.add d with
    | some (_, c2) => c2
    | none => c
  | .remove id => (c.remove id).2

/-- Apply a sequence of registry operations. -/
def Components.applyOps (c : Components) (ops : List RegOp) : Components :=
  ops.foldl Components.applyOp c

/-- Registry states reachable from the empty registry by `add` and `remove`
operations. -/
inductive Components.Reachable : Components → Prop where
  | new : Components.Reachable Components.new
  | step {c : Components} (op : RegOp) :
      Components.Reachable c → Components.Reachable (c.applyOp op)

/-- The `by_type_id` invariant: every binding refers to a live component
whose info carries exactly that type id. -/
def Components.TypeIdInv (c : Components) : Prop :=
  ∀ tid id, lookupTid c.by_type_id tid = some id →
    ∃ info, c.get id = some info ∧ info.type_id = some tid

/-! ## The world / archetype layer.

Modelled from the spec: `world.rs`, `archetype.rs` and `entity.rs` are not
among the sources under verification.  The spec describes the archetype
membership index (§4.3): on archetype creation, the subset of
already-registered components it holds is computed and the archetype's index
appended to each such component's member-of set; on component removal the
member-of set enumerates every affected archetype, which is torn down
(§4.5).  An archetype is an exact component composition, entities reside in
exactly one archetype, and archetype 0 is the empty archetype. -/

/-- An entity id, modelled as a natural. -/
abbrev EntityId := Nat

/-- Lookup of an entity's archetype in the residency list. -/
def lookupEnt (l : List (EntityId × ArchetypeIdx)) (e : EntityId) :
    Option ArchetypeIdx :=
  match l with
  | [] => none
  | (x, a) :: rest => if x = e then some a else lookupEnt rest e

/-- Move an entity to another archetype in the residency list. -/
def setEnt (l : List (EntityId × ArchetypeIdx)) (e : EntityId) (a : ArchetypeIdx) :
    List (EntityId × ArchetypeIdx) :=
  match l with
  | [] => []
  | (x, b) :: rest => if x = e then (x, a) :: rest else (x, b) :: setEnt rest e a

/-- Lookup of an archetype's composition by its index. -/
def lookupArch (l : List (ArchetypeIdx × List Nat)) (a : ArchetypeIdx) :
    Option (List Nat) :=
  match l with
  | [] => none
  | (i, S) :: rest => if i = a then some S else lookupArch rest a

/-- Find the index of the archetype with exactly the given composition. -/
def findArchByComp (l : List (ArchetypeIdx × List Nat)) (S : List Nat) :
    Option ArchetypeIdx :=
  match l with
  | [] => none
  | (i, T) :: rest => if T = S then some i else findArchByComp rest S

/-- Insert a component index into a sorted, duplicate-free composition. -/
def insertSorted (x : Nat) : List Nat → List Nat
  | [] => [x]
  | y :: ys =>
    if x < y then x :: y :: ys
    else if x = y then y :: ys
    else y :: insertSorted x ys

/-- Modelled from the spec: the world state relevant to the membership
index — the component registry, the set of archetypes (index and exact
composition, as component dense indices), and entity residency. -/
structure World where
  components : Components
  archetypes : List (ArchetypeIdx × List Nat)
  entities : List (EntityId × ArchetypeIdx)
  nextArchIdx : Nat
  nextEntityId : Nat
deriving DecidableEq

namespace World

/-- A fresh world: empty registry and only the empty archetype (index 0). -/
def new : World := ⟨Components.new, [(0, [])], [], 1, 0⟩

/-- `World::add_component_with_descriptor`, restricted to the registry. -/
def addComponent (w : World) (desc : ComponentDescriptor) : ComponentId × World :=
  match w.components.add desc with
  | some ((id, _), comps2) => (id, { w with components := comps2 })
  | none => (ComponentId.NULL, w)

/-- Modelled from the spec: spawn an entity into the empty archetype. -/
def spawn (w : World) : EntityId × World :=
  (w.nextEntityId,
   { w with
      entities := (w.nextEntityId, 0) :: w.entities
      nextEntityId := w.nextEntityId + 1 })

/-- Append archetype index `n` to the member-of set of every registered
component whose dense index occurs in the composition `S`. -/
def addMemberAll (c : Components) (S : List Nat) (n : ArchetypeIdx) : Components :=
  S.foldl
    (fun acc i =>
      acc.modifyByIndex i (fun info => { info with member_of := info.member_of ++ [n] }))
    c

/-- Modelled from the spec: attach the component with dense index `cidx` to
entity `e`, moving the entity to the archetype for its enlarged composition
and creating that archetype (updating the membership index) when it does not
exist yet. -/
def insertComp (w : World) (e : EntityId) (cidx : Nat) : World :=
  if (w.components.get_by_index cidx).isSome then
    match lookupEnt w.entities e with
    | some a =>
      match lookupArch w.archetypes a with
      | some S =>
        if insertSorted cidx S = S then w
        else
          match findArchByComp w.archetypes (insertSorted cidx S) with
          | some a2 => { w with entities := setEnt w.entities e a2 }
          | none =>
            { w with
                archetypes := (w.nextArchIdx, insertSorted cidx S) :: w.archetypes
                components := addMemberAll w.components (insertSorted cidx S) w.nextArchIdx
                entities := setEnt w.entities e w.nextArchIdx
                nextArchIdx := w.nextArchIdx + 1 }
      | none => w
    | none => w
  else w

/-- Drop every archetype index in `dead` from every component's member-of
set. -/
def filterMemberAll (c : Components) (dead : List ArchetypeIdx) : Components :=
  ⟨c.infos.mapValues
      (fun info =>
        { info with member_of := info.member_of.filter (fun a => !(dead.contains a)) }),
    c.by_type_id⟩

/-- Modelled from the spec: the cascading removal protocol (§4.5), restricted
to the structures modelled here — every archetype in the removed component's
member-of set is deleted, the entities residing in them are despawned, the
membership index is updated, and the component's slot is freed with a bumped
generation. -/
def removeComponent (w : World) (id : ComponentId) : World :=
  match w.components.get id with
  | some info =>
    { w with
        components := ((filterMemberAll w.components info.member_of).remove id).2
        archetypes := w.archetypes.filter (fun p => !(info.member_of.contains p.1))
        entities := w.entities.filter (fun p => !(info.member_of.contains p.2)) }
  | none => w

/-- A structural world operation. -/
inductive WOp where
  | addComponent (desc : ComponentDescriptor)
  | spawn
  | insertComp (e : EntityId) (cidx : Nat)
  | removeComponent (id : ComponentId)
deriving DecidableEq

/-- Apply one world operation. -/
def applyOp (w : World) : WOp → World
  | .addComponent d => (w.addComponent d).2
  | .spawn => (w.spawn).2
  | .insertComp e i => w.insertComp e i
  | .removeComponent id => w.removeComponent id

/-- Apply a sequence of world operations. -/
def applyOps (w : World) (ops : List WOp) : World := ops.foldl applyOp w

/-- World states reachable from the fresh world. -/
inductive Reachable : World → Prop where
  | new : Reachable World.new
  | step {w : World} (op : WOp) : Reachable w → Reachable (w.applyOp op)

/-- The membership invariant: a component's member-of set holds exactly the
indices of the archetypes whose composition includes the component. -/
def MemberOfInv (w : World) : Prop :=
  ∀ idx info, w.components.get_by_index idx = some info →
    ∀ a : ArchetypeIdx,
      a ∈ info.member_of ↔ ∃ S, lookupArch w.archetypes a = some S ∧ idx ∈ S

/-- Every archetype index is below the next-index counter. -/
def ArchBound (w : World) : Prop :=
  ∀ p ∈ w.archetypes, p.1 < w.nextArchIdx

/-- Every component index occurring in a composition is live. -/
def CompsLive (w : World) : Prop :=
  ∀ p ∈ w.archetypes, ∀ i ∈ p.2, (w.components.get_by_index i).isSome

/-- Archetype indices are pairwise distinct. -/
def ArchNodup (w : World) : Prop := (w.archetypes.map Prod.fst).Nodup

/-- The conjunction of the world invariants. -/
def Inv (w : World) : Prop :=
  w.components.WF ∧ ArchBound w ∧ ArchNodup w ∧ CompsLive w ∧ MemberOfInv w

end World

/-- The member-of set size of the component at a dense index. -/
def memberOfSize (w : World) (idx : Nat) : Option Nat :=
  (w.components.get_by_index idx).map (fun info => info.member_of.length)

/-- Descriptor of the test component `A` (`tests::component_member_of`). -/
def descA : ComponentDescriptor := ⟨"A", some 1, ⟨0, 1⟩, 0, true⟩

/-- Descriptor of the test component `B`. -/
def descB : ComponentDescriptor := ⟨"B", some 2, ⟨0, 1⟩, 0, true⟩

/-- Descriptor of the test component `C`. -/
def descC : ComponentDescriptor := ⟨"C", some 3, ⟨0, 1⟩, 0, true⟩

/-- The setup of `tests::component_member_of`: register `A`, `B`, `C`; spawn
`e1`, `e2`, `e3`; attach `{A}` to `e1`, `{A,B}` to `e2`, `{A,B,C}` to `e3`.
Components `A`, `B`, `C` get dense indices 0, 1, 2; entities get ids
0, 1, 2. -/
def scenarioSetupOps : List World.WOp :=
  [.addComponent descA, .addComponent descB, .addComponent descC,
   .spawn, .spawn, .spawn,
   .insertComp 0 0,
   .insertComp 1 0, .insertComp 1 1,
   .insertComp 2 0, .insertComp 2 1, .insertComp 2 2]

/-- The id `world.add_component::<A>()` returns in the scenario. -/
def cA : ComponentId := ⟨⟨0, 1⟩⟩

/-- The id `world.add_component::<B>()` returns in the scenario. -/
def cB : ComponentId := ⟨⟨1, 1⟩⟩

/-- The id `world.add_component::<C>()` returns in the scenario. -/
def cC : ComponentId := ⟨⟨2, 1⟩⟩

/-- The scenario world after setup. -/
def scenarioW1 : World := World.applyOps World.new scenarioSetupOps

/-- The scenario world after `remove_component(c3)`. -/
def scenarioW2 : World := scenarioW1.removeComponent cC

/-- The scenario world after additionally `remove_component(c2)`. -/
def scenarioW3 : World := scenarioW2.removeComponent cB

/-! ## The `derive_query` code generator, translated from
`evenio_macros/src/query.rs`.

Rust types appearing as struct fields are abstract tokens.  The generator's
output is modelled by which type each generated associated item delegates to,
plus the shape of the generated `Query::get` body. -/

/-- An abstract token standing for a Rust field type. -/
abbrev QType := Nat

/-- The fields of a struct fed to `derive(Query)`. -/
inductive Fields where
  | named : List (String × QType) → Fields
  | unnamed : List QType → Fields
  | unit : Fields
deriving DecidableEq

/-- The shape of a `DeriveInput`'s data. -/
inductive InputData where
  | structData : Fields → InputData
  | enumData : InputData
  | unionData : InputData
deriving DecidableEq

/-- The flat list of field types, in declared order (the argument of
`make_tuple`). -/
def Fields.types : Fields → List QType
  | .named fs => fs.map Prod.snd
  | .unnamed ts => ts
  | .unit => []

/-- The body generated for `Query::get` (`get_body` in `derive_query`). -/
inductive GetBody where
  | namedBody (structName : String) (fieldNames : List String)
  | unnamedBody (structName : String) (arity : Nat)
  | unitBody (structName : String)
deriving DecidableEq

/-- The `impl Query` / `impl ReadOnlyQuery` pair emitted by `derive_query`.
Each `List QType` field records the type (as a flat tuple of types) to which
the corresponding generated item refers or delegates. -/
structure GeneratedImpl where
  tupleTy : List QType
  queryPredicates : List QType
  roPredicates : List QType
  archStateTy : List QType
  stateTy : List QType
  initTarget : List QType
  newStateTarget : List QType
  getNewStateTarget : List QType
  newArchStateTarget : List QType
  getFetchTarget : List QType
  getBody : GetBody
  roItems : List String
deriving DecidableEq

/-- `derive_query`: errors on enums and unions; on a struct, emits a `Query`
impl whose associated items all delegate to the flat tuple of the field
types, a `get` body rebuilding the struct from the tuple fetch, and a
`ReadOnlyQuery` impl with one `ReadOnlyQuery` bound per field and no items. -/
def derive_query (name : String) (input : InputData) : Except String GeneratedImpl :=
  match input with
  | .structData f =>
    let tuple := f.types
    let body :=
      match f with
      | .named fs => GetBody.namedBody name (fs.map Prod.fst)
      | .unnamed ts => GetBody.unnamedBody name ts.length
      | .unit => GetBody.unitBody name
    .ok
      { tupleTy := tuple
        queryPredicates := tuple
        roPredicates := tuple
        archStateTy := tuple
        stateTy := tuple
        initTarget := tuple
        newStateTarget := tuple
        getNewStateTarget := tuple
        newArchStateTarget := tuple
        getFetchTarget := tuple
        getBody := body
        roItems := [] }
  | .enumData => .error "cannot derive `Query` on enums"
  | .unionData => .error "cannot derive `Query` on unions"

/-- A record value assembled by a query fetch. -/
inductive RecordVal (V : Type) where
  | named : String → List (String × V) → RecordVal V
  | positional : String → List V → RecordVal V
  | unitVal : String → RecordVal V
deriving DecidableEq

/-- Run a generated `get` body on the value the tuple query fetched from the
row (the list of the tuple's component values): the named body destructures
the tuple into per-field variables and builds the struct; the unnamed body
indexes the tuple at `0, 1, …`; the unit body builds the unit struct. -/
def GetBody.run {V : Type} (b : GetBody) (tupleVal : List V) : RecordVal V :=
  match b with
  | .namedBody n fs => .named n (fs.zip tupleVal)
  | .unnamedBody n k => .positional n ((List.range k).filterMap (fun i => tupleVal[i]?))
  | .unitBody n => .unitVal n

/-- Manual assembly of the record from the independently fetched field
values, as the spec's query-correctness property describes. -/
def assembleRecord {V : Type} (name : String) (f : Fields) (vs : List V) : RecordVal V :=
  match f with
  | .named fs => .named name ((fs.map Prod.fst).zip vs)
  | .unnamed _ => .positional name vs
  | .unit => .unitVal name


/-- Whether the generated `ReadOnlyQuery` impl applies, given which field
types satisfy `ReadOnlyQuery` (i.e. whether its where-clause is satisfied). -/
def roApplies (g : GeneratedImpl) (ro : QType → Bool) : Bool :=
  g.roPredicates.all ro

/-- The registry after registering `A` (dense index 0, generation 1). -/
def regAfterA : Components := Components.new.applyOp (RegOp.add descA)

/-- The registry after registering and then removing `A`: slot 0 is freed
with generation 2. -/
def regRemovedA : Components := regAfterA.applyOp (RegOp.remove ⟨⟨0, 1⟩⟩)

/-- The registry after additionally registering `B`, reusing slot 0 with
generation 2. -/
def regAfterB : Components := regRemovedA.applyOp (RegOp.add descB)

/-- The registry after removing `A` and re-registering a component with the
same type key. -/
def regReaddedA : Components := regRemovedA.applyOp (RegOp.add descA)

/-- The impl `derive_query` emits for the named struct
`struct Pos { x: X, y: Y }`. -/
def gPos : GeneratedImpl :=
  match derive_query "Pos" (.structData (Fields.named [("x", 0), ("y", 1)])) with
  | .ok g => g
  | .error _ => ⟨[], [], [], [], [], [], [], [], [], [], GetBody.unitBody "", []⟩

/-- The impl `derive_query` emits for the named struct
`struct R { a: A, b: B }`. -/
def gR : GeneratedImpl :=
  match derive_query "R" (.structData (Fields.named [("a", 0), ("b", 1)])) with
  | .ok g => g
  | .error _ => ⟨[], [], [], [], [], [], [], [], [], [], GetBody.unitBody "", []⟩

/-! ## Properties of the generational slot allocator. -/

theorem Key.eq_iff (k k2 : Key) :
    k = k2 ↔ k.index = k2.index ∧ k.generation = k2.generation := by
  cases k; cases k2; simp

namespace SlotMap

variable {α : Type}

theorem get_def (m : SlotMap α) (k : Key) :
    m.get k =
      match m.slots[k.index]? with
      | some s => if s.generation = k.generation then s.value else none
      | none => none := rfl

theorem get_mk (slots : List (Slot α)) (fl : List Nat) (k : Key) :
    (⟨slots, fl⟩ : SlotMap α).get k =
      match slots[k.index]? with
      | some s => if s.generation = k.generation then s.value else none
      | none => none := rfl

theorem slotGen_def (m : SlotMap α) (i : Nat) :
    m.slotGen i =
      match m.slots[i]? with
      | some s => s.generation
      | none => 0 := rfl

theorem slotGen_mk (slots : List (Slot α)) (fl : List Nat) (i : Nat) :
    (⟨slots, fl⟩ : SlotMap α).slotGen i =
      match slots[i]? with
      | some s => s.generation
      | none => 0 := rfl

theorem gbi_def (m : SlotMap α) (i : Nat) :
    m.get_by_index i =
      match m.slots[i]? with
      | some s =>
        match s.value with
        | some v => some (⟨i, s.generation⟩, v)
        | none => none
      | none => none := rfl

theorem gbi_mk (slots : List (Slot α)) (fl : List Nat) (i : Nat) :
    (⟨slots, fl⟩ : SlotMap α).get_by_index i =
      match slots[i]? with
      | some s =>
        match s.value with
        | some v => some ((⟨i, s.generation⟩ : Key), v)
        | none => none
      | none => none := rfl

theorem get_new (k : Key) : (new : SlotMap α).get k = none := rfl

theorem WF_new : (new : SlotMap α).WF :=
  ⟨fun i hi => absurd hi (List.not_mem_nil i), List.nodup_nil⟩

theorem insert_with_eq_none_iff (m : SlotMap α) (f : Key → α) :
    m.insert_with f = none ↔ m.exhausted := by
  cases h : m.freeList with
  | cons i rest => simp [insert_with, exhausted, h]
  | nil =>
    by_cases hlt : m.slots.length < keyCapacity <;>
      simp [insert_with, exhausted, h, hlt, Nat.not_lt.mp, Nat.not_lt]

theorem insert_with_cases {m m2 : SlotMap α} {f : Key → α} {k : Key}
    (h : m.insert_with f = some (k, m2)) :
    (∃ rest, m.freeList = k.index :: rest ∧ k.generation = m.slotGen k.index ∧
        m2 = ⟨m.slots.set k.index ⟨m.slotGen k.index, some (f k)⟩, rest⟩) ∨
      (m.freeList = [] ∧ k.index = m.slots.length ∧ k.generation = 1 ∧
        m.slots.length < keyCapacity ∧
        m2 = ⟨m.slots ++ [⟨1, some (f k)⟩], []⟩) := by
  cases hf : m.freeList with
  | cons i rest =>
    simp only [insert_with, hf] at h
    injection h with h
    injection h with hk hm
    subst hk
    exact Or.inl ⟨rest, rfl, rfl, hm.symm⟩
  | nil =>
    simp only [insert_with, hf] at h
    by_cases hlt : m.slots.length < keyCapacity
    · rw [if_pos hlt] at h
      injection h with h
      injection h with hk hm
      subst hk
      exact Or.inr ⟨rfl, rfl, rfl, hlt, hm.symm⟩
    · rw [if_neg hlt] at h
      exact absurd h (by simp)

theorem slotGen_set_le {slots : List (Slot α)} {j : Nat} {s2 : Slot α}
    (fl fl2 : List Nat)
    (hgen : (⟨slots, fl⟩ : SlotMap α).slotGen j ≤ s2.generation) (i : Nat) :
    (⟨slots, fl⟩ : SlotMap α).slotGen i ≤
      (⟨slots.set j s2, fl2⟩ : SlotMap α).slotGen i := by
  rw [slotGen_mk, slotGen_mk]
  by_cases hij : j = i
  · subst hij
    by_cases hlt : j < slots.length
    · rw [List.getElem?_set_self hlt]
      rw [slotGen_mk] at hgen
      exact hgen
    · rw [List.set_eq_of_length_le (Nat.not_lt.mp hlt)]
  · rw [List.getElem?_set_ne hij]

theorem slotGen_append_le (slots ext : List (Slot α)) (fl fl2 : List Nat) (i : Nat) :
    (⟨slots, fl⟩ : SlotMap α).slotGen i ≤
      (⟨slots ++ ext, fl2⟩ : SlotMap α).slotGen i := by
  rw [slotGen_mk, slotGen_mk]
  by_cases hlt : i < slots.length
  · rw [List.getElem?_append_left hlt]
  · have h0 : slots[i]? = none := List.getElem?_eq_none (Nat.not_lt.mp hlt)
    simp only [h0]
    exact Nat.zero_le _

theorem insert_slotGen_le {m m2 : SlotMap α} {f : Key → α} {k : Key}
    (h : m.insert_with f = some (k, m2)) (i : Nat) :
    m.slotGen i ≤ m2.slotGen i := by
  rcases insert_with_cases h with ⟨rest, hf, hg, hm⟩ | ⟨hf, hidx, hg, hlt, hm⟩
  · subst hm
    exact slotGen_set_le m.freeList rest (Nat.le_refl _) i
  · subst hm
    exact slotGen_append_le m.slots _ m.freeList [] i

theorem insert_length_le {m m2 : SlotMap α} {f : Key → α} {k : Key}
    (h : m.insert_with f = some (k, m2)) :
    m.slots.length ≤ m2.slots.length := by
  rcases insert_with_cases h with ⟨rest, hf, hg, hm⟩ | ⟨hf, hidx, hg, hlt, hm⟩ <;>
    subst hm <;> simp

theorem insert_get_self {m m2 : SlotMap α} {f : Key → α} {k : Key}
    (hwf : m.WF) (h : m.insert_with f = some (k, m2)) :
    m2.get k = some (f k) := by
  rcases insert_with_cases h with ⟨rest, hf, hg, hm⟩ | ⟨hf, hidx, hg, hm2⟩
  · obtain ⟨s, hsl, hv⟩ := hwf.1 k.index (hf ▸ List.mem_cons_self _ _)
    subst hm
    simp only [get_mk, List.getElem?_set_self (List.getElem?_eq_some_iff.mp hsl).1]
    rw [if_pos hg.symm]
  · obtain ⟨hlt, hm⟩ := hm2
    subst hm
    simp only [get_mk, hidx, List.getElem?_concat_length]
    rw [if_pos hg.symm]

theorem insert_get_none_before {m m2 : SlotMap α} {f : Key → α} {k : Key}
    (hwf : m.WF) (h : m.insert_with f = some (k, m2)) :
    m.get k = none := by
  rcases insert_with_cases h with ⟨rest, hf, hg, hm⟩ | ⟨hf, hidx, hg, hm2⟩
  · obtain ⟨s, hsl, hv⟩ := hwf.1 k.index (hf ▸ List.mem_cons_self _ _)
    have hgen : s.generation = k.generation := by
      simp only [hg, slotGen_def, hsl]
    simp only [get_def, hsl, if_pos hgen, hv]
  · simp only [get_def, List.getElem?_eq_none (Nat.le_of_eq hidx.symm)]

theorem insert_get_other {m m2 : SlotMap α} {f : Key → α} {k k2 : Key}
    (hwf : m.WF) (h : m.insert_with f = some (k, m2)) (hne : k2 ≠ k) :
    m2.get k2 = m.get k2 := by
  rcases insert_with_cases h with ⟨rest, hf, hg, hm⟩ | ⟨hf, hidx, hg, hm2⟩
  · obtain ⟨s, hsl, hv⟩ := hwf.1 k.index (hf ▸ List.mem_cons_self _ _)
    subst hm
    by_cases hi : k.index = k2.index
    · have hgen : k2.generation ≠ k.generation := fun he =>
        hne ((Key.eq_iff k2 k).mpr ⟨hi.symm, he⟩)
      have hsg : s.generation = k.generation := by
        simp only [hg, slotGen_def, hsl]
      have hlt := (List.getElem?_eq_some_iff.mp hsl).1
      have e1 : m.get k2 = none := by
        simp only [get_def, ← hi, hsl]
        rw [if_neg (fun he => hgen (by rw [← he]; exact hsg))]
      rw [e1]
      simp only [get_mk, ← hi, List.getElem?_set_self hlt]
      rw [if_neg (fun he => hgen (by rw [← he]; simp only [slotGen_def, hsl]; exact hsg))]
    · simp only [get_mk, List.getElem?_set_ne hi, get_def]
  · obtain ⟨hlt, hm⟩ := hm2
    subst hm
    by_cases hi : k2.index < m.slots.length
    · simp only [get_mk, List.getElem?_append_left hi, get_def]
    · have hoor : m.slots[k2.index]? = none := List.getElem?_eq_none (Nat.not_lt.mp hi)
      by_cases hie : k2.index = m.slots.length
      · have hgen : k2.generation ≠ 1 := fun he =>
          hne ((Key.eq_iff k2 k).mpr ⟨hie.trans hidx.symm, he.trans hg.symm⟩)
        have e1 : m.get k2 = none := by
          simp only [get_def, hoor]
        rw [e1]
        simp only [get_mk, hie, List.getElem?_concat_length]
        rw [if_neg (fun he => hgen he.symm)]
      · have hout : (m.slots ++ [(⟨1, some (f k)⟩ : Slot α)]).length ≤ k2.index := by
          simp only [List.length_append, List.length_cons, List.length_nil]
          omega
        simp only [get_mk, List.getElem?_eq_none hout, get_def, hoor]

theorem insert_WF {m m2 : SlotMap α} {f : Key → α} {k : Key}
    (hwf : m.WF) (h : m.insert_with f = some (k, m2)) : m2.WF := by
  rcases insert_with_cases h with ⟨rest, hf, hg, hm⟩ | ⟨hf, hidx, hg, hm2⟩
  · subst hm
    have hnd : (k.index :: rest).Nodup := hf ▸ hwf.2
    constructor
    · intro i hi
      obtain ⟨s, hsl, hv⟩ := hwf.1 i (hf ▸ List.mem_cons_of_mem _ hi)
      have hnei : k.index ≠ i := fun he => (List.nodup_cons.mp hnd).1 (he ▸ hi)
      exact ⟨s, by rw [List.getElem?_set_ne hnei]; exact hsl, hv⟩
    · exact (List.nodup_cons.mp hnd).2
  · obtain ⟨hlt, hm⟩ := hm2
    subst hm
    exact ⟨fun i hi => absurd hi (List.not_mem_nil i), List.nodup_nil⟩

theorem remove_fst (m : SlotMap α) (k : Key) : (m.remove k).1 = m.get k := by
  rw [remove, get]
  split
  next s hs =>
    split
    next hg =>
      split
      next v hv => rw [hv]
      next hv => rw [hv]
    next hg => rfl
  next hs => rfl

theorem remove_none_of_get_none {m : SlotMap α} {k : Key} (h : m.get k = none) :
    m.remove k = (none, m) := by
  rw [get_def] at h
  rw [remove]
  split
  next s hs =>
    simp only [hs] at h
    split
    next hg =>
      rw [if_pos hg] at h
      simp only [h]
    next hg => rfl
  next hs => rfl

theorem remove_some_cases {m m2 : SlotMap α} {k : Key} {v : α}
    (h : m.remove k = (some v, m2)) :
    ∃ s, m.slots[k.index]? = some s ∧ s.generation = k.generation ∧
      s.value = some v ∧
      m2 = ⟨m.slots.set k.index ⟨s.generation + 1, none⟩, k.index :: m.freeList⟩ := by
  rw [remove] at h
  split at h
  next s hs =>
    split at h
    next hg =>
      split at h
      next w hv =>
        injection h with h1 h2
        injection h1 with h1
        subst h1
        exact ⟨s, hs, hg, hv, h2.symm⟩
      next hv => exact absurd (congrArg Prod.fst h) (by simp)
    next hg => exact absurd (congrArg Prod.fst h) (by simp)
  next hs => exact absurd (congrArg Prod.fst h) (by simp)

theorem remove_get_self {m m2 : SlotMap α} {k : Key} {v : α}
    (h : m.remove k = (some v, m2)) : m2.get k = none := by
  obtain ⟨s, hs, hg, hv, hm⟩ := remove_some_cases h
  subst hm
  simp [get_mk, List.getElem?_set_self (List.getElem?_eq_some_iff.mp hs).1]

theorem remove_stale {m m2 : SlotMap α} {k : Key} {v : α}
    (h : m.remove k = (some v, m2)) : m2.stale k := by
  obtain ⟨s, hs, hg, hv, hm⟩ := remove_some_cases h
  subst hm
  have hlt := (List.getElem?_eq_some_iff.mp hs).1
  refine ⟨by simpa using hlt, ?_⟩
  simp only [slotGen_mk, List.getElem?_set_self hlt]
  rw [← hg]
  exact Nat.lt_succ_self _

theorem remove_get_other {m m2 : SlotMap α} {k k2 : Key} {v : α}
    (h : m.remove k = (some v, m2)) (hne : k2 ≠ k) :
    m2.get k2 = m.get k2 := by
  obtain ⟨s, hs, hg, hv, hm⟩ := remove_some_cases h
  subst hm
  by_cases hi : k.index = k2.index
  · have hgen : k2.generation ≠ k.generation := fun he =>
      hne ((Key.eq_iff k2 k).mpr ⟨hi.symm, he⟩)
    have hlt := (List.getElem?_eq_some_iff.mp hs).1
    have e1 : m.get k2 = none := by
      simp only [get_def, ← hi, hs]
      rw [if_neg (fun he => hgen (by rw [← he]; exact hg))]
    rw [e1]
    simp [get_mk, ← hi, List.getElem?_set_self hlt]
  · rw [get_mk, List.getElem?_set_ne hi, get_def]

theorem remove_slotGen_le (m : SlotMap α) (k : Key) (i : Nat) :
    m.slotGen i ≤ (m.remove k).2.slotGen i := by
  cases hr : (m.remove k).1 with
  | none =>
    have := remove_none_of_get_none ((remove_fst m k) ▸ hr)
    rw [this]
  | some v =>
    have hsome : m.remove k = (some v, (m.remove k).2) := by
      rw [← hr]
    obtain ⟨s, hs, hg, hv, hm⟩ := remove_some_cases hsome
    rw [hm]
    refine slotGen_set_le m.freeList _ ?_ i
    simp only [slotGen_mk, hs]
    omega

theorem remove_length_le (m : SlotMap α) (k : Key) :
    m.slots.length ≤ (m.remove k).2.slots.length := by
  cases hr : (m.remove k).1 with
  | none =>
    have := remove_none_of_get_none ((remove_fst m k) ▸ hr)
    rw [this]
  | some v =>
    have hsome : m.remove k = (some v, (m.remove k).2) := by
      rw [← hr]
    obtain ⟨s, hs, hg, hv, hm⟩ := remove_some_cases hsome
    rw [hm]
    simp

theorem remove_WF {m m2 : SlotMap α} {k : Key} {v : α}
    (hwf : m.WF) (h : m.remove k = (some v, m2)) : m2.WF := by
  obtain ⟨s, hs, hg, hv, hm⟩ := remove_some_cases h
  subst hm
  have hlt := (List.getElem?_eq_some_iff.mp hs).1
  have hnotfree : k.index ∉ m.freeList := by
    intro hmem
    obtain ⟨s2, hs2, hv2⟩ := hwf.1 k.index hmem
    rw [hs] at hs2
    injection hs2 with hs2
    subst hs2
    rw [hv] at hv2
    exact absurd hv2 (by simp)
  constructor
  · intro i hi
    rcases List.mem_cons.mp hi with hik | hmem
    · subst hik
      exact ⟨⟨s.generation + 1, none⟩, List.getElem?_set_self hlt, rfl⟩
    · obtain ⟨s2, hs2, hv2⟩ := hwf.1 i hmem
      have hnei : k.index ≠ i := fun he => hnotfree (he ▸ hmem)
      exact ⟨s2, by rw [List.getElem?_set_ne hnei]; exact hs2, hv2⟩
  · exact List.nodup_cons.mpr ⟨hnotfree, hwf.2⟩

theorem stale_mono {m m2 : SlotMap α} {k : Key}
    (hlen : m.slots.length ≤ m2.slots.length)
    (hgen : ∀ i, m.slotGen i ≤ m2.slotGen i) (h : m.stale k) : m2.stale k :=
  ⟨Nat.lt_of_lt_of_le h.1 hlen, Nat.lt_of_lt_of_le h.2 (hgen k.index)⟩

theorem live_slotGen {m : SlotMap α} {k : Key} (h : m.live k) :
    k.index < m.slots.length ∧ m.slotGen k.index = k.generation := by
  simp only [live, get_def] at h
  cases hs : m.slots[k.index]? with
  | none => simp only [hs] at h; exact absurd h (by simp)
  | some s =>
    simp only [hs] at h
    by_cases hg : s.generation = k.generation
    · exact ⟨(List.getElem?_eq_some_iff.mp hs).1, by simp only [slotGen_def, hs]; exact hg⟩
    · rw [if_neg hg] at h
      exact absurd h (by simp)

theorem stale_ne_live {m : SlotMap α} {k k2 : Key}
    (hs : m.stale k) (hl : m.live k2) : k ≠ k2 := by
  intro he
  subst he
  have h1 : m.slotGen k.index = k.generation := (live_slotGen hl).2
  have h2 : k.generation < m.slotGen k.index := hs.2
  rw [h1] at h2
  exact absurd h2 (Nat.lt_irrefl _)

theorem live_of_get {m : SlotMap α} {k : Key} {v : α} (h : m.get k = some v) :
    m.live k := by
  simp only [live, h]
  rfl

theorem gbi_of_get {m : SlotMap α} {k : Key} {v : α}
    (h : m.get k = some v) : m.get_by_index k.index = some (k, v) := by
  rw [get_def] at h
  cases hs : m.slots[k.index]? with
  | none => simp only [hs] at h; exact absurd h (by simp)
  | some s =>
    simp only [hs] at h
    by_cases hg : s.generation = k.generation
    · rw [if_pos hg] at h
      have hk : (⟨k.index, s.generation⟩ : Key) = k := (Key.eq_iff _ _).mpr ⟨rfl, hg⟩
      simp only [gbi_def, hs, h, hk]
    · rw [if_neg hg] at h
      exact absurd h (by simp)

theorem get_of_gbi {m : SlotMap α} {i : Nat} {k : Key} {v : α}
    (h : m.get_by_index i = some (k, v)) :
    k.index = i ∧ m.get k = some v := by
  rw [gbi_def] at h
  split at h
  next s hs =>
    split at h
    next w hv =>
      injection h with h
      injection h with hk hw
      subst hw
      subst hk
      exact ⟨rfl, by simp [get_def, hs, hv]⟩
    next hv => exact absurd h (by simp)
  next hs => exact absurd h (by simp)

theorem insert_gbi_before {m m2 : SlotMap α} {f : Key → α} {k : Key}
    (hwf : m.WF) (h : m.insert_with f = some (k, m2)) :
    m.get_by_index k.index = none := by
  rcases insert_with_cases h with ⟨rest, hf, hg, hm⟩ | ⟨hf, hidx, hg, hm2⟩
  · obtain ⟨s, hsl, hv⟩ := hwf.1 k.index (hf ▸ List.mem_cons_self _ _)
    simp only [gbi_def, hsl, hv]
  · simp only [gbi_def, List.getElem?_eq_none (Nat.le_of_eq hidx.symm)]

theorem insert_gbi_self {m m2 : SlotMap α} {f : Key → α} {k : Key}
    (hwf : m.WF) (h : m.insert_with f = some (k, m2)) :
    m2.get_by_index k.index = some (k, f k) :=
  gbi_of_get (insert_get_self hwf h)

theorem insert_gbi_other {m m2 : SlotMap α} {f : Key → α} {k : Key} {j : Nat}
    (hwf : m.WF) (h : m.insert_with f = some (k, m2)) (hne : j ≠ k.index) :
    m2.get_by_index j = m.get_by_index j := by
  rcases insert_with_cases h with ⟨rest, hf, hg, hm⟩ | ⟨hf, hidx, hg, hm2⟩
  · subst hm
    rw [gbi_mk, List.getElem?_set_ne (fun he => hne he.symm), gbi_def]
  · obtain ⟨hlt, hm⟩ := hm2
    subst hm
    by_cases hj : j < m.slots.length
    · rw [gbi_mk, List.getElem?_append_left hj, gbi_def]
    · have hout : (m.slots ++ [(⟨1, some (f k)⟩ : Slot α)]).length ≤ j := by
        simp only [List.length_append, List.length_cons, List.length_nil]
        omega
      rw [gbi_mk, List.getElem?_eq_none hout, gbi_def,
        List.getElem?_eq_none (Nat.not_lt.mp hj)]

theorem remove_gbi_self {m m2 : SlotMap α} {k : Key} {v : α}
    (h : m.remove k = (some v, m2)) : m2.get_by_index k.index = none := by
  obtain ⟨s, hs, hg, hv, hm⟩ := remove_some_cases h
  subst hm
  rw [gbi_mk, List.getElem?_set_self (List.getElem?_eq_some_iff.mp hs).1]

theorem remove_gbi_other {m m2 : SlotMap α} {k : Key} {v : α} {j : Nat}
    (h : m.remove k = (some v, m2)) (hne : j ≠ k.index) :
    m2.get_by_index j = m.get_by_index j := by
  obtain ⟨s, hs, hg, hv, hm⟩ := remove_some_cases h
  subst hm
  rw [gbi_mk, List.getElem?_set_ne (fun he => hne he.symm), gbi_def]

theorem modifyAt_gbi_self (m : SlotMap α) (i : Nat) (f : α → α) :
    (m.modifyAt i f).get_by_index i =
      (m.get_by_index i).map (fun p => (p.1, f p.2)) := by
  rw [modifyAt]
  split
  next s hs =>
    split
    next v hv =>
      simp [gbi_mk, List.getElem?_set_self (List.getElem?_eq_some_iff.mp hs).1,
        gbi_def, hs, hv]
    next hv => simp [gbi_def, hs, hv]
  next hs => simp [gbi_def, hs]

theorem modifyAt_gbi_other (m : SlotMap α) (i j : Nat) (f : α → α) (hne : j ≠ i) :
    (m.modifyAt i f).get_by_index j = m.get_by_index j := by
  rw [modifyAt]
  split
  next s hs =>
    split
    next v hv =>
      rw [gbi_mk, List.getElem?_set_ne (fun he => hne he.symm), gbi_def]
    next hv => rfl
  next hs => rfl

theorem modifyAt_slotGen (m : SlotMap α) (i : Nat) (f : α → α) (j : Nat) :
    (m.modifyAt i f).slotGen j = m.slotGen j := by
  rw [modifyAt]
  split
  next s hs =>
    split
    next v hv =>
      by_cases hij : i = j
      · subst hij
        rw [slotGen_mk, List.getElem?_set_self (List.getElem?_eq_some_iff.mp hs).1,
          slotGen_def, hs]
      · rw [slotGen_mk, List.getElem?_set_ne hij, slotGen_def]
    next hv => rfl
  next hs => rfl

theorem modifyAt_length (m : SlotMap α) (i : Nat) (f : α → α) :
    (m.modifyAt i f).slots.length = m.slots.length := by
  rw [modifyAt]
  split
  next s hs =>
    split
    next v hv => simp
    next hv => rfl
  next hs => rfl

theorem modifyAt_WF {m : SlotMap α} (i : Nat) (f : α → α) (hwf : m.WF) :
    (m.modifyAt i f).WF := by
  rw [modifyAt]
  split
  next s hs =>
    split
    next v hv =>
      constructor
      · intro j hj
        obtain ⟨s2, hs2, hv2⟩ := hwf.1 j hj
        have hne : i ≠ j := by
          intro he
          subst he
          rw [hs] at hs2
          injection hs2 with hs2
          subst hs2
          rw [hv] at hv2
          exact absurd hv2 (by simp)
        exact ⟨s2, by rw [List.getElem?_set_ne hne]; exact hs2, hv2⟩
      · exact hwf.2
    next hv => exact hwf
  next hs => exact hwf

theorem mapValues_gbi (m : SlotMap α) (f : α → α) (i : Nat) :
    (m.mapValues f).get_by_index i =
      (m.get_by_index i).map (fun p => (p.1, f p.2)) := by
  rw [mapValues, gbi_mk, List.getElem?_map, gbi_def]
  cases m.slots[i]? with
  | none => rfl
  | some s =>
    obtain ⟨g, val⟩ := s
    cases val with
    | none => rfl
    | some v => rfl

theorem mapValues_get (m : SlotMap α) (f : α → α) (k : Key) :
    (m.mapValues f).get k = (m.get k).map f := by
  rw [mapValues, get_mk, List.getElem?_map, get_def]
  cases m.slots[k.index]? with
  | none => rfl
  | some s =>
    obtain ⟨g, val⟩ := s
    by_cases hg : g = k.generation
    · simp [hg]
    · simp [hg]

theorem mapValues_slotGen (m : SlotMap α) (f : α → α) (i : Nat) :
    (m.mapValues f).slotGen i = m.slotGen i := by
  rw [mapValues, slotGen_mk, List.getElem?_map, slotGen_def]
  cases m.slots[i]? with
  | none => rfl
  | some s =>
    obtain ⟨g, val⟩ := s
    rfl

theorem mapValues_length (m : SlotMap α) (f : α → α) :
    (m.mapValues f).slots.length = m.slots.length := by
  rw [mapValues]
  simp

theorem mapValues_WF {m : SlotMap α} (f : α → α) (hwf : m.WF) :
    (m.mapValues f).WF := by
  constructor
  · intro i hi
    obtain ⟨s, hs, hv⟩ := hwf.1 i hi
    refine ⟨⟨s.generation, s.value.map f⟩, ?_, ?_⟩
    · rw [mapValues]
      simp only [List.getElem?_map, hs]
      rfl
    · rw [hv]
      rfl
  · exact hwf.2

end SlotMap


/-! ## Properties of the type-id index. -/

theorem lookupTid_removeTid_self (l : List (TypeId × ComponentId)) (tid : TypeId) :
    lookupTid (removeTid l tid) tid = none := by
  induction l with
  | nil => rfl
  | cons p rest ih =>
    obtain ⟨t, id⟩ := p
    rw [removeTid]
    by_cases ht : t = tid
    · rw [if_pos ht]
      exact ih
    · rw [if_neg ht, lookupTid, if_neg ht]
      exact ih

theorem lookupTid_removeTid_other (l : List (TypeId × ComponentId)) {t2 tid : TypeId}
    (h : t2 ≠ tid) : lookupTid (removeTid l tid) t2 = lookupTid l t2 := by
  induction l with
  | nil => rfl
  | cons p rest ih =>
    obtain ⟨t, id⟩ := p
    rw [removeTid]
    by_cases ht : t = tid
    · rw [if_pos ht, lookupTid, if_neg (fun he => h (he.symm.trans ht))]
      exact ih
    · rw [if_neg ht, lookupTid, lookupTid]
      by_cases ht2 : t = t2
      · rw [if_pos ht2, if_pos ht2]
      · rw [if_neg ht2, if_neg ht2]
        exact ih

/-! ## Properties of the component registry. -/

namespace Components

theorem new_WF : Components.new.WF := SlotMap.WF_new

theorem new_get (id : ComponentId) : Components.new.get id = none := rfl

theorem add_occupied {c : Components} {desc : ComponentDescriptor} {tid : TypeId}
    {id : ComponentId} (ht : desc.type_id = some tid)
    (hl : lookupTid c.by_type_id tid = some id) :
    c.add desc = some ((id, false), c) := by
  simp only [add, ht, hl]

theorem add_vacant_some {c : Components} {desc : ComponentDescriptor} {tid : TypeId}
    {k : Key} {infos2 : SlotMap ComponentInfo} (ht : desc.type_id = some tid)
    (hl : lookupTid c.by_type_id tid = none)
    (hi : c.infos.insert_with (fun k => mkInfo desc k) = some (k, infos2)) :
    c.add desc =
      some (((⟨k⟩ : ComponentId), true),
        ⟨infos2, (tid, (⟨k⟩ : ComponentId)) :: c.by_type_id⟩) := by
  simp only [add, ht, hl, hi]

theorem add_no_tid_some {c : Components} {desc : ComponentDescriptor}
    {k : Key} {infos2 : SlotMap ComponentInfo} (ht : desc.type_id = none)
    (hi : c.infos.insert_with (fun k => mkInfo desc k) = some (k, infos2)) :
    c.add desc = some (((⟨k⟩ : ComponentId), true), ⟨infos2, c.by_type_id⟩) := by
  simp only [add, ht, hi]

theorem add_inv {c c2 : Components} {desc : ComponentDescriptor} {id : ComponentId}
    {fresh : Bool} (h : c.add desc = some ((id, fresh), c2)) :
    (∃ tid, desc.type_id = some tid ∧ lookupTid c.by_type_id tid = some id ∧
        fresh = false ∧ c2 = c) ∨
      (∃ tid infos2, desc.type_id = some tid ∧ lookupTid c.by_type_id tid = none ∧
        c.infos.insert_with (fun k => mkInfo desc k) = some (id.key, infos2) ∧
        fresh = true ∧ c2 = ⟨infos2, (tid, id) :: c.by_type_id⟩) ∨
      (∃ infos2, desc.type_id = none ∧
        c.infos.insert_with (fun k => mkInfo desc k) = some (id.key, infos2) ∧
        fresh = true ∧ c2 = ⟨infos2, c.by_type_id⟩) := by
  unfold add at h
  split at h
  next tid ht =>
    split at h
    next id0 hl =>
      injection h with h
      injection h with h1 h2
      injection h1 with hid hfresh
      subst hid
      exact Or.inl ⟨tid, ht, hl, hfresh.symm, h2.symm⟩
    next hl =>
      split at h
      next k infos2 hi =>
        injection h with h
        injection h with h1 h2
        injection h1 with hid hfresh
        subst hid
        exact Or.inr (Or.inl ⟨tid, infos2, ht, hl, hi, hfresh.symm, h2.symm⟩)
      next hi => exact absurd h (by simp)
  next ht =>
    split at h
    next k infos2 hi =>
      injection h with h
      injection h with h1 h2
      injection h1 with hid hfresh
      subst hid
      exact Or.inr (Or.inr ⟨infos2, ht, hi, hfresh.symm, h2.symm⟩)
    next hi => exact absurd h (by simp)

theorem add_eq_none_iff (c : Components) (desc : ComponentDescriptor) :
    c.add desc = none ↔
      ((match desc.type_id with
        | some tid => lookupTid c.by_type_id tid = none
        | none => True) ∧ c.infos.exhausted) := by
  unfold add
  cases ht : desc.type_id with
  | some tid =>
    cases hl : lookupTid c.by_type_id tid with
    | some id => simp [hl]
    | none =>
      cases hi : c.infos.insert_with (fun k => mkInfo desc k) with
      | some p =>
        obtain ⟨k, infos2⟩ := p
        have hne : ¬c.infos.exhausted := by
          intro hex
          rw [← SlotMap.insert_with_eq_none_iff c.infos (fun k => mkInfo desc k)] at hex
          rw [hex] at hi
          exact absurd hi (by simp)
        simp [hl, hi, hne]
      | none =>
        have hex := (SlotMap.insert_with_eq_none_iff c.infos (fun k => mkInfo desc k)).mp hi
        simp [hl, hi, hex]
  | none =>
    cases hi : c.infos.insert_with (fun k => mkInfo desc k) with
    | some p =>
      obtain ⟨k, infos2⟩ := p
      have hne : ¬c.infos.exhausted := by
        intro hex
        rw [← SlotMap.insert_with_eq_none_iff c.infos (fun k => mkInfo desc k)] at hex
        rw [hex] at hi
        exact absurd hi (by simp)
      simp [hi, hne]
    | none =>
      have hex := (SlotMap.insert_with_eq_none_iff c.infos (fun k => mkInfo desc k)).mp hi
      simp [hi, hex]

theorem remove_some_inv {c c2 : Components} {id : ComponentId} {info : ComponentInfo}
    (h : c.remove id = (some info, c2)) :
    c.infos.remove id.key = (some info, c2.infos) ∧
      ((∃ tid, info.type_id = some tid ∧ c2.by_type_id = removeTid c.by_type_id tid) ∨
        (info.type_id = none ∧ c2.by_type_id = c.by_type_id)) := by
  unfold remove at h
  split at h
  next info0 infos2 heq =>
    injection h with h1 h2
    injection h1 with h1
    subst h1
    subst h2
    constructor
    · exact heq
    · cases hti : info0.type_id with
      | some tid => exact Or.inl ⟨tid, rfl, rfl⟩
      | none => exact Or.inr ⟨rfl, rfl⟩
  next a heq =>
    injection h with h1 h2
    exact absurd h1 (by simp)

theorem remove_noop_of_get_none {c : Components} {id : ComponentId}
    (h : c.get id = none) : c.remove id = (none, c) := by
  unfold remove
  have hr := SlotMap.remove_none_of_get_none (m := c.infos) (k := id.key) h
  rw [hr]

theorem remove_fst_eq (c : Components) (id : ComponentId) :
    (c.remove id).1 = (c.infos.remove id.key).1 := by
  unfold remove
  split
  next info0 infos2 heq => rw [heq]
  next a heq => rw [heq]

end Components


theorem SlotMap.remove_snd_of_fst_none {α : Type} {m : SlotMap α} {k : Key}
    (h : (m.remove k).1 = none) : (m.remove k).2 = m := by
  have hg : m.get k = none := by rw [← SlotMap.remove_fst]; exact h
  rw [SlotMap.remove_none_of_get_none hg]

namespace Components

theorem remove_snd_of_none {c : Components} {id : ComponentId}
    (h : (c.remove id).1 = none) : (c.remove id).2 = c := by
  have h1 : (c.infos.remove id.key).1 = none := by
    rw [← remove_fst_eq]
    exact h
  have hg : c.infos.get id.key = none := by
    rw [← SlotMap.remove_fst]
    exact h1
  exact congrArg Prod.snd (remove_noop_of_get_none hg)

theorem remove_snd_infos (c : Components) (id : ComponentId) :
    (c.remove id).2.infos = (c.infos.remove id.key).2 := by
  cases hr : (c.remove id).1 with
  | none =>
    rw [remove_snd_of_none hr]
    have h1 : (c.infos.remove id.key).1 = none := by
      rw [← remove_fst_eq]
      exact hr
    rw [SlotMap.remove_snd_of_fst_none h1]
  | some info =>
    have hsome : c.remove id = (some info, (c.remove id).2) := by rw [← hr]
    obtain ⟨h1, h2⟩ := remove_some_inv hsome
    rw [h1]

theorem applyOp_slotGen_le (c : Components) (op : RegOp) (i : Nat) :
    c.infos.slotGen i ≤ (c.applyOp op).infos.slotGen i := by
  cases op with
  | add desc =>
    rw [Components.applyOp]
    cases h : c.add desc with
    | none => exact Nat.le_refl _
    | some r =>
      obtain ⟨⟨id, fresh⟩, c2⟩ := r
      rcases add_inv h with ⟨tid, ht, hl, hf, hc⟩ | ⟨tid, infos2, ht, hl, hi, hf, hc⟩ |
        ⟨infos2, ht, hi, hf, hc⟩
      · subst hc
        exact Nat.le_refl _
      · subst hc
        exact SlotMap.insert_slotGen_le hi i
      · subst hc
        exact SlotMap.insert_slotGen_le hi i
  | remove id =>
    rw [Components.applyOp]
    rw [remove_snd_infos]
    exact SlotMap.remove_slotGen_le c.infos id.key i

theorem applyOp_length_le (c : Components) (op : RegOp) :
    c.infos.slots.length ≤ (c.applyOp op).infos.slots.length := by
  cases op with
  | add desc =>
    rw [Components.applyOp]
    cases h : c.add desc with
    | none => exact Nat.le_refl _
    | some r =>
      obtain ⟨⟨id, fresh⟩, c2⟩ := r
      rcases add_inv h with ⟨tid, ht, hl, hf, hc⟩ | ⟨tid, infos2, ht, hl, hi, hf, hc⟩ |
        ⟨infos2, ht, hi, hf, hc⟩
      · subst hc
        exact Nat.le_refl _
      · subst hc
        exact SlotMap.insert_length_le hi
      · subst hc
        exact SlotMap.insert_length_le hi
  | remove id =>
    rw [Components.applyOp]
    rw [remove_snd_infos]
    exact SlotMap.remove_length_le c.infos id.key

theorem applyOps_stale {c : Components} {k : Key} (ops : List RegOp)
    (h : c.infos.stale k) : (c.applyOps ops).infos.stale k := by
  induction ops generalizing c with
  | nil => exact h
  | cons op rest ih =>
    show ((c.applyOp op).applyOps rest).infos.stale k
    exact ih (SlotMap.stale_mono (applyOp_length_le c op) (applyOp_slotGen_le c op) h)

theorem TypeIdInv_new : Components.new.TypeIdInv := by
  intro tid id h
  simp [lookupTid] at h

theorem TypeIdInv_add {c c2 : Components} {desc : ComponentDescriptor}
    {id : ComponentId} {fresh : Bool} (hwf : c.WF) (hinv : c.TypeIdInv)
    (h : c.add desc = some ((id, fresh), c2)) : c2.TypeIdInv := by
  rcases add_inv h with ⟨tid, ht, hl, hf, hc⟩ | ⟨tid, infos2, ht, hl, hi, hf, hc⟩ |
    ⟨infos2, ht, hi, hf, hc⟩
  · subst hc
    exact hinv
  · subst hc
    intro t2 id2 hl2
    rw [lookupTid] at hl2
    by_cases hteq : tid = t2
    · rw [if_pos hteq] at hl2
      injection hl2 with hl2
      subst hl2
      refine ⟨mkInfo desc id.key, ?_, ?_⟩
      · exact SlotMap.insert_get_self hwf hi
      · show desc.type_id = some t2
        rw [ht, hteq]
    · rw [if_neg hteq] at hl2
      obtain ⟨info, hg, hti⟩ := hinv t2 id2 hl2
      have hg2 : c.infos.get id2.key = some info := hg
      have hne : id2.key ≠ id.key := by
        intro he
        have hnone := SlotMap.insert_get_none_before hwf hi
        rw [← he] at hnone
        rw [hg2] at hnone
        exact absurd hnone (by simp)
      refine ⟨info, ?_, hti⟩
      show infos2.get id2.key = some info
      rw [SlotMap.insert_get_other hwf hi hne]
      exact hg2
  · subst hc
    intro t2 id2 hl2
    obtain ⟨info, hg, hti⟩ := hinv t2 id2 hl2
    have hg2 : c.infos.get id2.key = some info := hg
    have hne : id2.key ≠ id.key := by
      intro he
      have hnone := SlotMap.insert_get_none_before hwf hi
      rw [← he] at hnone
      rw [hg2] at hnone
      exact absurd hnone (by simp)
    refine ⟨info, ?_, hti⟩
    show infos2.get id2.key = some info
    rw [SlotMap.insert_get_other hwf hi hne]
    exact hg2

theorem TypeIdInv_remove {c : Components} {id : ComponentId} (hwf : c.WF)
    (hinv : c.TypeIdInv) : (c.remove id).2.TypeIdInv := by
  cases hr : (c.remove id).1 with
  | none =>
    rw [remove_snd_of_none hr]
    exact hinv
  | some info =>
    have hsome : c.remove id = (some info, (c.remove id).2) := by rw [← hr]
    obtain ⟨h1, hbt⟩ := remove_some_inv hsome
    have hgetid : c.infos.get id.key = some info := by
      rw [← SlotMap.remove_fst]
      rw [h1]
    intro t2 id2 hl2
    have hne : id2 ≠ id := by
      intro he
      subst he
      rcases hbt with ⟨tid, hti, hb⟩ | ⟨hti, hb⟩
      · rw [hb] at hl2
        by_cases ht2 : t2 = tid
        · subst ht2
          rw [lookupTid_removeTid_self] at hl2
          exact absurd hl2 (by simp)
        · rw [lookupTid_removeTid_other _ ht2] at hl2
          obtain ⟨info2, hg2, hti2⟩ := hinv t2 id2 hl2
          have : info2 = info := by
            have hg3 : c.infos.get id2.key = some info2 := hg2
            rw [hgetid] at hg3
            injection hg3 with hg3
            exact hg3.symm
          subst this
          rw [hti] at hti2
          injection hti2 with hti2
          exact ht2 hti2.symm
      · rw [hb] at hl2
        obtain ⟨info2, hg2, hti2⟩ := hinv t2 id2 hl2
        have : info2 = info := by
          have hg3 : c.infos.get id2.key = some info2 := hg2
          rw [hgetid] at hg3
          injection hg3 with hg3
          exact hg3.symm
        subst this
        rw [hti] at hti2
        exact absurd hti2 (by simp)
    have hlc : lookupTid c.by_type_id t2 = some id2 := by
      rcases hbt with ⟨tid, hti, hb⟩ | ⟨hti, hb⟩
      · rw [hb] at hl2
        by_cases ht2 : t2 = tid
        · subst ht2
          rw [lookupTid_removeTid_self] at hl2
          exact absurd hl2 (by simp)
        · rw [lookupTid_removeTid_other _ ht2] at hl2
          exact hl2
      · rw [hb] at hl2
        exact hl2
    obtain ⟨info2, hg2, hti2⟩ := hinv t2 id2 hlc
    have hg3 : c.infos.get id2.key = some info2 := hg2
    have hkne : id2.key ≠ id.key := by
      intro he
      exact hne ((ComponentId.mk.injEq _ _) ▸ he)
    refine ⟨info2, ?_, hti2⟩
    show (c.remove id).2.infos.get id2.key = some info2
    have h4 : c.infos.remove id.key = (some info, (c.remove id).2.infos) := h1
    rw [SlotMap.remove_get_other h4 hkne]
    exact hg3

theorem WF_add {c c2 : Components} {desc : ComponentDescriptor} {id : ComponentId}
    {fresh : Bool} (hwf : c.WF) (h : c.add desc = some ((id, fresh), c2)) : c2.WF := by
  rcases add_inv h with ⟨tid, ht, hl, hf, hc⟩ | ⟨tid, infos2, ht, hl, hi, hf, hc⟩ |
    ⟨infos2, ht, hi, hf, hc⟩
  · subst hc
    exact hwf
  · subst hc
    exact SlotMap.insert_WF hwf hi
  · subst hc
    exact SlotMap.insert_WF hwf hi

theorem WF_remove {c : Components} {id : ComponentId} (hwf : c.WF) :
    (c.remove id).2.WF := by
  cases hr : (c.remove id).1 with
  | none =>
    rw [remove_snd_of_none hr]
    exact hwf
  | some info =>
    have hsome : c.remove id = (some info, (c.remove id).2) := by rw [← hr]
    obtain ⟨h1, h2⟩ := remove_some_inv hsome
    exact SlotMap.remove_WF hwf h1

theorem WF_typeIdInv_applyOp {c : Components} (hw : c.WF) (hi : c.TypeIdInv)
    (op : RegOp) : (c.applyOp op).WF ∧ (c.applyOp op).TypeIdInv := by
  cases op with
  | add desc =>
    rw [Components.applyOp]
    cases h2 : c.add desc with
    | none => exact ⟨hw, hi⟩
    | some r =>
      obtain ⟨⟨id, fresh⟩, c2⟩ := r
      exact ⟨WF_add hw h2, TypeIdInv_add hw hi h2⟩
  | remove id => exact ⟨WF_remove hw, TypeIdInv_remove hw hi⟩

theorem reachable_WF_typeIdInv {c : Components} (h : c.Reachable) :
    c.WF ∧ c.TypeIdInv := by
  induction h with
  | new => exact ⟨new_WF, TypeIdInv_new⟩
  | step op hr ih => exact WF_typeIdInv_applyOp ih.1 ih.2 _

end Components


/-! ## Helper lemmas for the world layer. -/

theorem SlotMap.remove_eq_some {α : Type} {m : SlotMap α} {k : Key} {v : α}
    (h : m.get k = some v) : m.remove k = (some v, (m.remove k).2) := by
  have h1 : (m.remove k).1 = some v := by rw [SlotMap.remove_fst]; exact h
  rw [← h1]

theorem Components.gbi_eq (c : Components) (idx : Nat) :
    c.get_by_index idx = (c.infos.get_by_index idx).map (fun p => p.2) := rfl

theorem Components.gbi_isSome (c : Components) (idx : Nat) :
    (c.get_by_index idx).isSome = (c.infos.get_by_index idx).isSome := by
  rw [Components.gbi_eq]
  cases c.infos.get_by_index idx <;> rfl

theorem Components.modifyByIndex_gbi_self (c : Components) (i : Nat)
    (f : ComponentInfo → ComponentInfo) :
    (c.modifyByIndex i f).get_by_index i = (c.get_by_index i).map f := by
  rw [Components.gbi_eq, Components.gbi_eq]
  show ((c.infos.modifyAt i f).get_by_index i).map (fun p => p.2) = _
  rw [SlotMap.modifyAt_gbi_self]
  cases c.infos.get_by_index i with
  | none => rfl
  | some p => rfl

theorem Components.modifyByIndex_gbi_other (c : Components) (i j : Nat)
    (f : ComponentInfo → ComponentInfo) (hne : j ≠ i) :
    (c.modifyByIndex i f).get_by_index j = c.get_by_index j := by
  rw [Components.gbi_eq, Components.gbi_eq]
  show ((c.infos.modifyAt i f).get_by_index j).map (fun p => p.2) = _
  rw [SlotMap.modifyAt_gbi_other c.infos i j f hne]

theorem Components.modifyByIndex_WF {c : Components} (i : Nat)
    (f : ComponentInfo → ComponentInfo) (h : c.WF) : (c.modifyByIndex i f).WF :=
  SlotMap.modifyAt_WF i f h

theorem Components.remove_gbi_other2 {c : Components} {id : ComponentId}
    {info : ComponentInfo} (hg : c.get id = some info) {j : Nat}
    (hne : j ≠ id.key.index) :
    (c.remove id).2.get_by_index j = c.get_by_index j := by
  have hsm : c.infos.remove id.key = (some info, (c.infos.remove id.key).2) :=
    SlotMap.remove_eq_some hg
  rw [Components.gbi_eq, Components.gbi_eq, Components.remove_snd_infos]
  rw [SlotMap.remove_gbi_other hsm hne]

theorem Components.remove_gbi_self2 {c : Components} {id : ComponentId}
    {info : ComponentInfo} (hg : c.get id = some info) :
    (c.remove id).2.get_by_index id.key.index = none := by
  have hsm : c.infos.remove id.key = (some info, (c.infos.remove id.key).2) :=
    SlotMap.remove_eq_some hg
  rw [Components.gbi_eq, Components.remove_snd_infos]
  rw [SlotMap.remove_gbi_self hsm]
  rfl

theorem mem_insertSorted (x : Nat) (S : List Nat) (i : Nat) :
    i ∈ insertSorted x S ↔ i = x ∨ i ∈ S := by
  induction S with
  | nil => simp [insertSorted]
  | cons y ys ih =>
    rw [insertSorted]
    by_cases h1 : x < y
    · rw [if_pos h1]
      simp only [List.mem_cons]
    · rw [if_neg h1]
      by_cases h2 : x = y
      · subst h2
        rw [if_pos rfl]
        simp only [List.mem_cons]
        tauto
      · rw [if_neg h2]
        simp only [List.mem_cons, ih]
        tauto

theorem lookupArch_mem {l : List (ArchetypeIdx × List Nat)} {a : ArchetypeIdx}
    {S : List Nat} (h : lookupArch l a = some S) : (a, S) ∈ l := by
  induction l with
  | nil => exact absurd h (by simp [lookupArch])
  | cons p rest ih =>
    obtain ⟨i, T⟩ := p
    rw [lookupArch] at h
    by_cases hi : i = a
    · rw [if_pos hi] at h
      injection h with h
      subst hi
      subst h
      exact List.mem_cons_self _ _
    · rw [if_neg hi] at h
      exact List.mem_cons_of_mem _ (ih h)

theorem lookupArch_of_mem_nodup {l : List (ArchetypeIdx × List Nat)}
    (hnd : (l.map Prod.fst).Nodup) {p : ArchetypeIdx × List Nat} (hp : p ∈ l) :
    lookupArch l p.1 = some p.2 := by
  induction l with
  | nil => exact absurd hp (List.not_mem_nil p)
  | cons q rest ih =>
    obtain ⟨i, T⟩ := q
    rcases List.mem_cons.mp hp with hq | hmem
    · subst hq
      rw [lookupArch, if_pos rfl]
    · rw [lookupArch]
      have hne : i ≠ p.1 := by
        intro he
        have : p.1 ∈ rest.map Prod.fst := List.mem_map_of_mem Prod.fst hmem
        rw [← he] at this
        exact (List.nodup_cons.mp hnd).1 this
      rw [if_neg hne]
      exact ih (List.nodup_cons.mp hnd).2 hmem

theorem lookupArch_filter_true {l : List (ArchetypeIdx × List Nat)}
    {dead : List ArchetypeIdx} {a : ArchetypeIdx} (h : dead.contains a = true) :
    lookupArch (l.filter (fun p => !(dead.contains p.1))) a = none := by
  induction l with
  | nil => rfl
  | cons p rest ih =>
    obtain ⟨i, T⟩ := p
    rw [List.filter_cons]
    by_cases hi : i = a
    · subst hi
      simp only [h, Bool.not_true, Bool.false_eq_true, if_false]
      exact ih
    · by_cases hd : dead.contains i
      · simp only [hd, Bool.not_true, Bool.false_eq_true, if_false]
        exact ih
      · simp only [Bool.not_eq_true] at hd
        simp only [hd, Bool.not_false, if_true]
        rw [lookupArch, if_neg hi]
        exact ih

theorem lookupArch_filter_false {l : List (ArchetypeIdx × List Nat)}
    {dead : List ArchetypeIdx} {a : ArchetypeIdx} (h : dead.contains a = false) :
    lookupArch (l.filter (fun p => !(dead.contains p.1))) a = lookupArch l a := by
  induction l with
  | nil => rfl
  | cons p rest ih =>
    obtain ⟨i, T⟩ := p
    rw [List.filter_cons]
    by_cases hi : i = a
    · subst hi
      simp only [h, Bool.not_false, if_true]
      rw [lookupArch, lookupArch, if_pos rfl, if_pos rfl]
    · by_cases hd : dead.contains i
      · simp only [hd, Bool.not_true, Bool.false_eq_true, if_false]
        rw [ih, lookupArch, if_neg hi]
      · simp only [Bool.not_eq_true] at hd
        simp only [hd, Bool.not_false, if_true]
        rw [lookupArch, lookupArch, if_neg hi, if_neg hi]
        exact ih

namespace World

theorem addMemberAll_cons (c : Components) (x : Nat) (rest : List Nat)
    (n : ArchetypeIdx) :
    addMemberAll c (x :: rest) n =
      addMemberAll
        (c.modifyByIndex x (fun info => { info with member_of := info.member_of ++ [n] }))
        rest n := rfl

theorem addMemberAll_WF {c : Components} (S : List Nat) (n : ArchetypeIdx)
    (h : c.WF) : (addMemberAll c S n).WF := by
  induction S generalizing c with
  | nil => exact h
  | cons x rest ih =>
    rw [addMemberAll_cons]
    exact ih (Components.modifyByIndex_WF x _ h)

theorem addMemberAll_gbi_isSome (c : Components) (S : List Nat) (n : ArchetypeIdx)
    (idx : Nat) :
    ((addMemberAll c S n).get_by_index idx).isSome = (c.get_by_index idx).isSome := by
  induction S generalizing c with
  | nil => rfl
  | cons x rest ih =>
    rw [addMemberAll_cons, ih]
    by_cases hx : idx = x
    · subst hx
      rw [Components.modifyByIndex_gbi_self]
      cases c.get_by_index idx <;> rfl
    · rw [Components.modifyByIndex_gbi_other c x idx _ hx]

theorem addMemberAll_gbi_mem {c : Components} {S : List Nat} {n : ArchetypeIdx}
    {idx : Nat} {info2 : ComponentInfo}
    (h : (addMemberAll c S n).get_by_index idx = some info2) :
    ∃ info, c.get_by_index idx = some info ∧ info2.type_id = info.type_id ∧
      (∀ a, a ∈ info2.member_of ↔ a ∈ info.member_of ∨ (idx ∈ S ∧ a = n)) := by
  induction S generalizing c with
  | nil => exact ⟨info2, h, rfl, fun a => by simp⟩
  | cons x rest ih =>
    rw [addMemberAll_cons] at h
    obtain ⟨info1, hg1, hti1, hmem1⟩ := ih h
    by_cases hx : idx = x
    · subst hx
      rw [Components.modifyByIndex_gbi_self] at hg1
      cases hg0 : c.get_by_index idx with
      | none =>
        rw [hg0] at hg1
        exact absurd hg1 (by simp)
      | some info0 =>
        rw [hg0] at hg1
        simp only [Option.map_some'] at hg1
        injection hg1 with hg1
        refine ⟨info0, rfl, ?_, ?_⟩
        · rw [hti1, ← hg1]
        · intro a
          rw [hmem1 a, ← hg1]
          simp only [List.mem_append, List.mem_singleton, List.mem_cons]
          tauto
    · rw [Components.modifyByIndex_gbi_other c x idx _ hx] at hg1
      refine ⟨info1, hg1, hti1, ?_⟩
      intro a
      rw [hmem1 a]
      simp only [List.mem_cons]
      tauto

theorem filterMemberAll_gbi (c : Components) (dead : List ArchetypeIdx) (idx : Nat) :
    (filterMemberAll c dead).get_by_index idx =
      (c.get_by_index idx).map
        (fun info =>
          { info with member_of := info.member_of.filter (fun a => !(dead.contains a)) }) := by
  rw [Components.gbi_eq, Components.gbi_eq]
  show ((c.infos.mapValues _).get_by_index idx).map (fun p => p.2) = _
  rw [SlotMap.mapValues_gbi]
  cases c.infos.get_by_index idx with
  | none => rfl
  | some p => rfl

theorem filterMemberAll_get (c : Components) (dead : List ArchetypeIdx)
    (id : ComponentId) :
    (filterMemberAll c dead).get id =
      (c.get id).map
        (fun info =>
          { info with member_of := info.member_of.filter (fun a => !(dead.contains a)) }) := by
  show (c.infos.mapValues _).get id.key = _
  rw [SlotMap.mapValues_get]
  rfl

theorem filterMemberAll_WF {c : Components} (dead : List ArchetypeIdx) (h : c.WF) :
    (filterMemberAll c dead).WF :=
  SlotMap.mapValues_WF _ h

end World


theorem Components.gbi_mk2 (infos : SlotMap ComponentInfo)
    (bt : List (TypeId × ComponentId)) (idx : Nat) :
    (⟨infos, bt⟩ : Components).get_by_index idx =
      (infos.get_by_index idx).map (fun p => p.2) := rfl

namespace World

theorem Inv_new : World.new.Inv := by
  refine ⟨SlotMap.WF_new, ?_, ?_, ?_, ?_⟩
  · intro p hp
    have := List.mem_singleton.mp hp
    subst this
    exact Nat.one_pos
  · show ([0] : List ArchetypeIdx).Nodup
    exact List.nodup_singleton 0
  · intro p hp i hi
    have := List.mem_singleton.mp hp
    subst this
    exact absurd hi (List.not_mem_nil i)
  · intro idx info hg a
    have hn : World.new.components.get_by_index idx = none := rfl
    rw [hn] at hg
    exact absurd hg (by simp)

theorem Inv_spawn {w : World} (h : w.Inv) : w.spawn.2.Inv := by
  obtain ⟨h1, h2, h3, h4, h5⟩ := h
  exact ⟨h1, h2, h3, h4, h5⟩

theorem Inv_insert_components {w : World} {desc : ComponentDescriptor} {k : Key}
    {infos2 : SlotMap ComponentInfo} {bt : List (TypeId × ComponentId)}
    (h1 : w.components.WF) (h2 : ArchBound w) (h3 : ArchNodup w) (h4 : CompsLive w)
    (h5 : MemberOfInv w)
    (hi : w.components.infos.insert_with (fun k => Components.mkInfo desc k) =
      some (k, infos2)) :
    ({ w with components := ⟨infos2, bt⟩ } : World).Inv := by
  have hbefore : w.components.infos.get_by_index k.index = none :=
    SlotMap.insert_gbi_before h1 hi
  have hCbefore : w.components.get_by_index k.index = none := by
    rw [Components.gbi_eq, hbefore]
    rfl
  refine ⟨SlotMap.insert_WF h1 hi, h2, h3, ?_, ?_⟩
  · intro p hp i hiS
    have hlive : (w.components.get_by_index i).isSome = true := h4 p hp i hiS
    have hne : i ≠ k.index := by
      intro he
      subst he
      rw [hCbefore] at hlive
      exact absurd hlive (by simp)
    show ((⟨infos2, bt⟩ : Components).get_by_index i).isSome = true
    rw [Components.gbi_mk2, SlotMap.insert_gbi_other h1 hi hne, ← Components.gbi_eq]
    exact hlive
  · intro idx info hg a
    by_cases hki : idx = k.index
    · subst hki
      have hg2 : (⟨infos2, bt⟩ : Components).get_by_index k.index =
          some (Components.mkInfo desc k) := by
        rw [Components.gbi_mk2, SlotMap.insert_gbi_self h1 hi]
        rfl
      have hg3 : ({ w with components := (⟨infos2, bt⟩ : Components) } : World).components.get_by_index k.index =
          some (Components.mkInfo desc k) := hg2
      rw [hg3] at hg
      injection hg with hg
      subst hg
      constructor
      · intro ha
        exact absurd ha (List.not_mem_nil a)
      · rintro ⟨S, hla, hiS⟩
        have hmem := lookupArch_mem hla
        have hlive : (w.components.get_by_index k.index).isSome = true := h4 _ hmem _ hiS
        rw [hCbefore] at hlive
        exact absurd hlive (by simp)
    · have hg2 : (⟨infos2, bt⟩ : Components).get_by_index idx =
          w.components.get_by_index idx := by
        rw [Components.gbi_mk2, SlotMap.insert_gbi_other h1 hi hki, ← Components.gbi_eq]
      have hg3 : ({ w with components := (⟨infos2, bt⟩ : Components) } : World).components.get_by_index idx =
          (⟨infos2, bt⟩ : Components).get_by_index idx := rfl
      rw [hg3, hg2] at hg
      exact h5 idx info hg a

theorem Inv_addComponent {w : World} (desc : ComponentDescriptor) (h : w.Inv) :
    (w.addComponent desc).2.Inv := by
  obtain ⟨h1, h2, h3, h4, h5⟩ := h
  rw [World.addComponent]
  cases ha : w.components.add desc with
  | none => exact ⟨h1, h2, h3, h4, h5⟩
  | some r =>
    obtain ⟨⟨id, fresh⟩, c2⟩ := r
    rcases Components.add_inv ha with ⟨tid, ht, hl, hf, hc⟩ |
      ⟨tid, infos2, ht, hl, hi, hf, hc⟩ | ⟨infos2, ht, hi, hf, hc⟩
    · subst hc
      exact ⟨h1, h2, h3, h4, h5⟩
    · subst hc
      exact Inv_insert_components h1 h2 h3 h4 h5 hi
    · subst hc
      exact Inv_insert_components h1 h2 h3 h4 h5 hi

theorem Inv_insertComp {w : World} (e : EntityId) (cidx : Nat) (h : w.Inv) :
    (w.insertComp e cidx).Inv := by
  obtain ⟨h1, h2, h3, h4, h5⟩ := h
  rw [World.insertComp]
  by_cases hlive : (w.components.get_by_index cidx).isSome = true
  case neg =>
    rw [if_neg hlive]
    exact ⟨h1, h2, h3, h4, h5⟩
  case pos =>
    rw [if_pos hlive]
    split
    next a0 he =>
      split
      next S hla =>
        by_cases hS : insertSorted cidx S = S
        · rw [if_pos hS]
          exact ⟨h1, h2, h3, h4, h5⟩
        · rw [if_neg hS]
          split
          next a2 hf => exact ⟨h1, h2, h3, h4, h5⟩
          next hf =>
            refine ⟨addMemberAll_WF _ _ h1, ?_, ?_, ?_, ?_⟩
            · intro p hp
              rcases List.mem_cons.mp hp with hq | hmem
              · subst hq
                exact Nat.lt_succ_self _
              · exact Nat.lt_trans (h2 p hmem) (Nat.lt_succ_self _)
            · show (((w.nextArchIdx, insertSorted cidx S) :: w.archetypes).map Prod.fst).Nodup
              rw [List.map_cons]
              refine List.nodup_cons.mpr ⟨?_, h3⟩
              intro hmem
              obtain ⟨p, hpmem, hpfst⟩ := List.mem_map.mp hmem
              have hb := h2 p hpmem
              rw [hpfst] at hb
              exact absurd hb (Nat.lt_irrefl _)
            · intro p hp i hiS
              show ((addMemberAll w.components (insertSorted cidx S)
                  w.nextArchIdx).get_by_index i).isSome = true
              rw [addMemberAll_gbi_isSome]
              rcases List.mem_cons.mp hp with hq | hmem
              · subst hq
                rcases (mem_insertSorted cidx S i).mp hiS with hcx | hin
                · subst hcx
                  exact hlive
                · exact h4 _ (lookupArch_mem hla) i hin
              · exact h4 p hmem i hiS
            · intro idx info2 hg2 a
              have hg3 : (addMemberAll w.components (insertSorted cidx S)
                  w.nextArchIdx).get_by_index idx = some info2 := hg2
              obtain ⟨info, hg0, hti, hmem⟩ := addMemberAll_gbi_mem hg3
              rw [hmem a]
              by_cases han : w.nextArchIdx = a
              · have hnotold : a ∉ info.member_of := by
                  intro hmemold
                  obtain ⟨T, hlaT, hiT⟩ := (h5 idx info hg0 a).mp hmemold
                  have hb := h2 _ (lookupArch_mem hlaT)
                  rw [han] at hb
                  exact absurd hb (Nat.lt_irrefl _)
                constructor
                · rintro (hmo | ⟨hidx2, han2⟩)
                  · exact absurd hmo hnotold
                  · refine ⟨insertSorted cidx S, ?_, hidx2⟩
                    show lookupArch ((w.nextArchIdx, insertSorted cidx S) ::
                      w.archetypes) a = some (insertSorted cidx S)
                    rw [lookupArch, if_pos han]
                · rintro ⟨T, hlaT, hiT⟩
                  have hlaT2 : lookupArch ((w.nextArchIdx, insertSorted cidx S) ::
                      w.archetypes) a = some T := hlaT
                  rw [lookupArch, if_pos han] at hlaT2
                  injection hlaT2 with hlaT2
                  subst hlaT2
                  exact Or.inr ⟨hiT, han.symm⟩
              · constructor
                · rintro (hmo | ⟨hidx2, han2⟩)
                  · obtain ⟨T, hlaT, hiT⟩ := (h5 idx info hg0 a).mp hmo
                    refine ⟨T, ?_, hiT⟩
                    show lookupArch ((w.nextArchIdx, insertSorted cidx S) ::
                      w.archetypes) a = some T
                    rw [lookupArch, if_neg han]
                    exact hlaT
                  · exact absurd han2.symm han
                · rintro ⟨T, hlaT, hiT⟩
                  have hlaT2 : lookupArch ((w.nextArchIdx, insertSorted cidx S) ::
                      w.archetypes) a = some T := hlaT
                  rw [lookupArch, if_neg han] at hlaT2
                  exact Or.inl ((h5 idx info hg0 a).mpr ⟨T, hlaT2, hiT⟩)
      next hla => exact ⟨h1, h2, h3, h4, h5⟩
    next he => exact ⟨h1, h2, h3, h4, h5⟩

theorem Inv_removeComponent {w : World} (id : ComponentId) (h : w.Inv) :
    (w.removeComponent id).Inv := by
  obtain ⟨h1, h2, h3, h4, h5⟩ := h
  rw [World.removeComponent]
  split
  case h_2 hg => exact ⟨h1, h2, h3, h4, h5⟩
  case h_1 info hg =>
    have hwfc1 : (filterMemberAll w.components info.member_of).WF :=
      filterMemberAll_WF _ h1
    have hgc1 : (filterMemberAll w.components info.member_of).get id =
        some { info with
          member_of := info.member_of.filter (fun a => !(info.member_of.contains a)) } := by
      rw [filterMemberAll_get, hg]
      rfl
    have hgbiold : w.components.get_by_index id.key.index = some info := by
      rw [Components.gbi_eq, SlotMap.gbi_of_get hg]
      rfl
    refine ⟨Components.WF_remove hwfc1, ?_, ?_, ?_, ?_⟩
    · intro p hp
      exact h2 p (List.mem_filter.mp hp).1
    · show ((w.archetypes.filter
        (fun p => !(info.member_of.contains p.1))).map Prod.fst).Nodup
      exact List.Nodup.sublist ((List.filter_sublist _).map Prod.fst) h3
    · intro p hp i hiS
      obtain ⟨hpold, hpcond⟩ := List.mem_filter.mp hp
      have hpc : info.member_of.contains p.1 = false := by
        simpa using hpcond
      have hlive0 : (w.components.get_by_index i).isSome = true := h4 p hpold i hiS
      have hne : i ≠ id.key.index := by
        intro he
        subst he
        have hmo : p.1 ∈ info.member_of :=
          (h5 id.key.index info hgbiold p.1).mpr
            ⟨p.2, lookupArch_of_mem_nodup h3 hpold, hiS⟩
        have hx2 : info.member_of.contains p.1 = true :=
          List.elem_eq_true_of_mem hmo
        rw [hpc] at hx2
        exact absurd hx2 (by simp)
      show ((((filterMemberAll w.components info.member_of).remove
        id).2).get_by_index i).isSome = true
      rw [Components.remove_gbi_other2 hgc1 hne, filterMemberAll_gbi]
      cases hx : w.components.get_by_index i with
      | none =>
        rw [hx] at hlive0
        exact absurd hlive0 (by simp)
      | some info0 => rfl
    · intro idx info2 hg2 a
      by_cases hki : idx = id.key.index
      · subst hki
        have hz : (((filterMemberAll w.components info.member_of).remove
            id).2).get_by_index id.key.index = none :=
          Components.remove_gbi_self2 hgc1
        have hg3 : (((filterMemberAll w.components info.member_of).remove
            id).2).get_by_index id.key.index = some info2 := hg2
        rw [hz] at hg3
        exact absurd hg3 (by simp)
      · have hg3 : (((filterMemberAll w.components info.member_of).remove
            id).2).get_by_index idx = some info2 := hg2
        rw [Components.remove_gbi_other2 hgc1 hki, filterMemberAll_gbi] at hg3
        cases hx : w.components.get_by_index idx with
        | none =>
          rw [hx] at hg3
          exact absurd hg3 (by simp)
        | some info0 =>
          rw [hx] at hg3
          simp only [Option.map_some'] at hg3
          injection hg3 with hg3
          subst hg3
          show a ∈ info0.member_of.filter (fun a => !(info.member_of.contains a)) ↔ _
          by_cases hd : info.member_of.contains a = true
          · constructor
            · intro hmf
              have := (List.mem_filter.mp hmf).2
              rw [hd] at this
              exact absurd this (by simp)
            · rintro ⟨T, hlaT, hiT⟩
              rw [lookupArch_filter_true hd] at hlaT
              exact absurd hlaT (by simp)
          · have hdf : info.member_of.contains a = false := by
              simpa using hd
            constructor
            · intro hmf
              obtain ⟨T, hlaT, hiT⟩ :=
                (h5 idx info0 hx a).mp (List.mem_filter.mp hmf).1
              refine ⟨T, ?_, hiT⟩
              rw [lookupArch_filter_false hdf]
              exact hlaT
            · rintro ⟨T, hlaT, hiT⟩
              rw [lookupArch_filter_false hdf] at hlaT
              refine List.mem_filter.mpr ⟨(h5 idx info0 hx a).mpr ⟨T, hlaT, hiT⟩, ?_⟩
              rw [hdf]
              rfl

theorem Inv_applyOp {w : World} (h : w.Inv) (op : WOp) : (w.applyOp op).Inv := by
  cases op with
  | addComponent desc => exact Inv_addComponent desc h
  | spawn => exact Inv_spawn h
  | insertComp e i => exact Inv_insertComp e i h
  | removeComponent id => exact Inv_removeComponent id h

theorem reachable_Inv {w : World} (h : w.Reachable) : w.Inv := by
  induction h with
  | new => exact Inv_new
  | step op hr ih => exact Inv_applyOp ih op

end World


/-! ## Remaining helper lemmas. -/

theorem filterMap_range_getElem {V : Type} (vs : List V) :
    (List.range vs.length).filterMap (fun i => vs[i]?) = vs := by
  induction vs using List.reverseRecOn with
  | nil => rfl
  | append_singleton l a ih =>
    rw [List.length_append, List.length_cons, List.length_nil, List.range_succ,
      List.filterMap_append]
    have hcongr : ∀ i ∈ List.range l.length, (l ++ [a])[i]? = l[i]? := fun i hi =>
      List.getElem?_append_left (List.mem_range.mp hi)
    rw [List.filterMap_congr hcongr, ih]
    have hlast : (l ++ [a])[l.length]? = some a := List.getElem?_concat_length l a
    simp [List.filterMap_cons, hlast]

theorem World.reachable_applyOps {w : World} (h : w.Reachable) (ops : List World.WOp) :
    (w.applyOps ops).Reachable := by
  induction ops generalizing w with
  | nil => exact h
  | cons op rest ih => exact ih (World.Reachable.step op h)

/-! ## The claims. -/

/-- C1: `Components::add` deduplicates statically-typed descriptors: a
descriptor whose type id is already registered returns the existing id with
`is_fresh = false` and leaves the registry untouched; a fresh type id, or no
type id, allocates a new info record (absent before, present afterwards) and
returns `is_fresh = true`; registering the same statically-typed descriptor
twice returns the same id, the second time with `is_fresh = false`. -/
theorem components_add_contract :
    ∀ (c : Components) (desc : ComponentDescriptor), c.WF →
      (∀ tid id, desc.type_id = some tid → lookupTid c.by_type_id tid = some id →
        c.add desc = some ((id, false), c)) ∧
      (∀ tid id fresh c2, desc.type_id = some tid →
        lookupTid c.by_type_id tid = none → c.add desc = some ((id, fresh), c2) →
        fresh = true ∧ c.get id = none ∧
          c2.get id = some (Components.mkInfo desc id.key)) ∧
      (∀ id fresh c2, desc.type_id = none → c.add desc = some ((id, fresh), c2) →
        fresh = true ∧ c.get id = none ∧
          c2.get id = some (Components.mkInfo desc id.key)) ∧
      (∀ tid id c2, desc.type_id = some tid → c.add desc = some ((id, true), c2) →
        c2.add desc = some ((id, false), c2)) := by
  intro c desc hwf
  refine ⟨?_, ?_, ?_, ?_⟩
  · intro tid id ht hl
    exact Components.add_occupied ht hl
  · intro tid id fresh c2 ht hl h
    rcases Components.add_inv h with ⟨tid2, ht2, hl2, hf, hc⟩ |
      ⟨tid2, infos2, ht2, hl2, hi, hf, hc⟩ | ⟨infos2, ht2, hi, hf, hc⟩
    · rw [ht] at ht2
      injection ht2 with ht2
      subst ht2
      rw [hl] at hl2
      exact absurd hl2 (by simp)
    · subst hc
      exact ⟨hf, SlotMap.insert_get_none_before hwf hi, SlotMap.insert_get_self hwf hi⟩
    · rw [ht] at ht2
      exact absurd ht2 (by simp)
  · intro id fresh c2 ht h
    rcases Components.add_inv h with ⟨tid2, ht2, hl2, hf, hc⟩ |
      ⟨tid2, infos2, ht2, hl2, hi, hf, hc⟩ | ⟨infos2, ht2, hi, hf, hc⟩
    · rw [ht] at ht2
      exact absurd ht2 (by simp)
    · rw [ht] at ht2
      exact absurd ht2 (by simp)
    · subst hc
      exact ⟨hf, SlotMap.insert_get_none_before hwf hi, SlotMap.insert_get_self hwf hi⟩
  · intro tid id c2 ht h
    rcases Components.add_inv h with ⟨tid2, ht2, hl2, hf, hc⟩ |
      ⟨tid2, infos2, ht2, hl2, hi, hf, hc⟩ | ⟨infos2, ht2, hi, hf, hc⟩
    · cases hf
    · subst hc
      rw [ht] at ht2
      injection ht2 with ht2
      subst ht2
      refine Components.add_occupied ht ?_
      rw [lookupTid, if_pos rfl]
    · rw [ht] at ht2
      exact absurd ht2 (by simp)

/-- Witness for C1 at a concrete input: registering `A` in the empty
registry allocates a fresh record under id (0, 1). -/
theorem components_add_contract_witness :
    Components.new.WF ∧ descA.type_id = some 1 ∧
      lookupTid Components.new.by_type_id 1 = none ∧
      Components.new.add descA =
        some (((⟨⟨0, 1⟩⟩ : ComponentId), true), regAfterA) ∧
      (true = true ∧ Components.new.get ⟨⟨0, 1⟩⟩ = none ∧
        regAfterA.get ⟨⟨0, 1⟩⟩ = some (Components.mkInfo descA ⟨0, 1⟩)) :=
  ⟨SlotMap.WF_new, rfl, rfl, by decide,
    (components_add_contract Components.new descA SlotMap.WF_new).2.1 1 ⟨⟨0, 1⟩⟩ true
      regAfterA rfl rfl (by decide)⟩

/-- C2: on any struct input (named, positional or unit fields),
`derive_query` succeeds and emits an impl whose state type, arch-state type
and all four operations refer to the flat tuple of the field types in
declared order, and whose `get` body rebuilds the record exactly as manual
assembly from the tuple fetch would, for both named and positional
layouts. -/
theorem derive_query_delegates_to_tuple :
    ∀ (name : String) (f : Fields),
      ∃ g : GeneratedImpl, derive_query name (.structData f) = .ok g ∧
        g.tupleTy = f.types ∧ g.stateTy = f.types ∧ g.archStateTy = f.types ∧
        g.initTarget = f.types ∧ g.newStateTarget = f.types ∧
        g.getNewStateTarget = f.types ∧ g.newArchStateTarget = f.types ∧
        g.getFetchTarget = f.types ∧
        (∀ (V : Type) (vs : List V), vs.length = f.types.length →
          g.getBody.run vs = assembleRecord name f vs) := by
  intro name f
  refine ⟨_, rfl, rfl, rfl, rfl, rfl, rfl, rfl, rfl, rfl, ?_⟩
  intro V vs hlen
  cases f with
  | named fs => rfl
  | unnamed ts =>
    show RecordVal.positional name ((List.range ts.length).filterMap (fun i => vs[i]?)) =
      RecordVal.positional name vs
    have h2 : ts.length = vs.length := hlen.symm
    rw [h2]
    rw [filterMap_range_getElem vs]
  | unit => rfl

/-- Witness for C2: the `get` body generated for `struct Pos { x, y }`
assembles the same record as manual assembly on the fetched tuple
`[10, 20]`. -/
theorem derive_query_delegates_to_tuple_witness :
    ([10, 20] : List Nat).length = (Fields.named [("x", 0), ("y", 1)]).types.length ∧
      gPos.getBody.run [10, 20] =
        assembleRecord "Pos" (Fields.named [("x", 0), ("y", 1)]) [10, 20] := by
  obtain ⟨g, hok, h1, h2, h3, h4, h5, h6, h7, h8, hrun⟩ :=
    derive_query_delegates_to_tuple "Pos" (Fields.named [("x", 0), ("y", 1)])
  have hgp : gPos = g := by
    rw [gPos, hok]
  exact ⟨rfl, by rw [hgp]; exact hrun Nat [10, 20] rfl⟩

/-- C3: two component ids are equal iff both dense index and generation
match; a successful registry remove leaves the removed id stale (its slot's
generation strictly above the id's); staleness persists under any further
sequence of add/remove operations; an id freshly allocated by `add` never
equals a stale id; and a stale id never equals a live one. -/
theorem componentId_generation_safety :
    (∀ a b : ComponentId, a = b ↔ a.index = b.index ∧ a.generation = b.generation) ∧
      (∀ (c c2 : Components) (id : ComponentId) (info : ComponentInfo),
        c.remove id = (some info, c2) → c2.infos.stale id.key) ∧
      (∀ (c : Components) (id : ComponentId) (ops : List RegOp),
        c.infos.stale id.key → (c.applyOps ops).infos.stale id.key) ∧
      (∀ (c c2 : Components) (desc : ComponentDescriptor) (id id2 : ComponentId),
        c.infos.stale id.key → c.add desc = some ((id2, true), c2) → id2 ≠ id) ∧
      (∀ (c : Components) (id id2 : ComponentId),
        c.infos.stale id.key → c.infos.live id2.key → id ≠ id2) := by
  refine ⟨?_, ?_, ?_, ?_, ?_⟩
  · intro a b
    constructor
    · intro he
      subst he
      exact ⟨rfl, rfl⟩
    · rintro ⟨h1, h2⟩
      cases a
      cases b
      congr 1
      exact (Key.eq_iff _ _).mpr ⟨h1, h2⟩
  · intro c c2 id info h
    exact SlotMap.remove_stale (Components.remove_some_inv h).1
  · intro c id ops h
    exact Components.applyOps_stale ops h
  · intro c c2 desc id id2 hst h
    rcases Components.add_inv h with ⟨tid, ht, hl, hf, hc⟩ |
      ⟨tid, infos2, ht, hl, hi, hf, hc⟩ | ⟨infos2, ht, hi, hf, hc⟩
    · cases hf
    · rcases SlotMap.insert_with_cases hi with ⟨rest, hfree, hgenk, hm⟩ |
        ⟨hfree, hidx, hgenk, hlt, hm⟩
      · intro he
        subst he
        have h2 := hst.2
        rw [hgenk] at h2
        exact absurd h2 (Nat.lt_irrefl _)
      · intro he
        subst he
        have h2 := hst.1
        rw [hidx] at h2
        exact absurd h2 (Nat.lt_irrefl _)
    · rcases SlotMap.insert_with_cases hi with ⟨rest, hfree, hgenk, hm⟩ |
        ⟨hfree, hidx, hgenk, hlt, hm⟩
      · intro he
        subst he
        have h2 := hst.2
        rw [hgenk] at h2
        exact absurd h2 (Nat.lt_irrefl _)
      · intro he
        subst he
        have h2 := hst.1
        rw [hidx] at h2
        exact absurd h2 (Nat.lt_irrefl _)
  · intro c id id2 hst hl he
    exact SlotMap.stale_ne_live hst hl (congrArg ComponentId.key he)

/-- Witness for C3: after removing `A`, id (0, 1) is stale; registering `B`
reuses slot 0 with generation 2, and the new id differs from the stale
one. -/
theorem componentId_generation_safety_witness :
    regRemovedA.infos.stale ⟨0, 1⟩ ∧
      regRemovedA.add descB = some (((⟨⟨0, 2⟩⟩ : ComponentId), true), regAfterB) ∧
      (⟨⟨0, 2⟩⟩ : ComponentId) ≠ ⟨⟨0, 1⟩⟩ :=
  ⟨⟨by decide, by decide⟩, by decide,
    componentId_generation_safety.2.2.2.1 regRemovedA regAfterB descB ⟨⟨0, 1⟩⟩
      ⟨⟨0, 2⟩⟩ ⟨by decide, by decide⟩ (by decide)⟩

/-- C4: on any struct input, the emitted `ReadOnlyQuery` impl carries one
`ReadOnlyQuery` bound per field type in declared order and no items, so it
applies exactly when every field type is read-only-derivable: all fields
read-only makes the derivation succeed, any mutable-access field makes it
fail. -/
theorem derive_query_readonly_variant :
    ∀ (name : String) (f : Fields),
      ∃ g : GeneratedImpl, derive_query name (.structData f) = .ok g ∧
        g.roPredicates = f.types ∧ g.roItems = [] ∧
        (∀ ro : QType → Bool, roApplies g ro = f.types.all ro) ∧
        (∀ ro : QType → Bool, f.types.all ro = true → roApplies g ro = true) ∧
        (∀ (ro : QType → Bool) (t : QType), t ∈ f.types → ro t = false →
          roApplies g ro = false) := by
  intro name f
  refine ⟨_, rfl, rfl, rfl, fun ro => rfl, fun ro h => h, ?_⟩
  intro ro t ht hro
  show f.types.all ro = false
  rw [List.all_eq_false]
  refine ⟨t, ht, ?_⟩
  rw [hro]
  decide

/-- Witness for C4: for `struct R { a: A, b: B }`, an all-read-only
assignment satisfies the emitted bounds and an assignment marking `b`
mutable falsifies them. -/
theorem derive_query_readonly_variant_witness :
    (Fields.named [("a", 0), ("b", 1)]).types.all (fun _ => true) = true ∧
      ((1 : QType) ∈ (Fields.named [("a", 0), ("b", 1)]).types ∧
        (fun t : QType => t == 0) 1 = false) ∧
      roApplies gR (fun _ => true) = true ∧
      roApplies gR (fun t => t == 0) = false := by
  obtain ⟨g, hok, h1, h2, h3, h4, h5⟩ :=
    derive_query_readonly_variant "R" (Fields.named [("a", 0), ("b", 1)])
  have hgr : gR = g := by
    rw [gR, hok]
  refine ⟨rfl, ⟨by decide, rfl⟩, ?_, ?_⟩
  · rw [hgr]
    exact h4 _ rfl
  · rw [hgr]
    exact h5 (fun t => t == 0) 1 (by decide) rfl

/-- C5: the three `Index` impls return the info record on a valid
id/index/type key and hit their `panic!` branch (modelled as `none`) exactly
on an invalid one, never substituting a default. -/
theorem components_index_panics_iff_invalid :
    ∀ c : Components,
      (∀ id info, c.get id = some info → c.indexById id = some info) ∧
      (∀ id, c.get id = none → c.indexById id = none) ∧
      (∀ i info, c.get_by_index i = some info → c.indexByIdx i = some info) ∧
      (∀ i, c.get_by_index i = none → c.indexByIdx i = none) ∧
      (∀ t info, c.get_by_type_id t = some info → c.indexByTypeId t = some info) ∧
      (∀ t, c.get_by_type_id t = none → c.indexByTypeId t = none) := by
  intro c
  refine ⟨?_, ?_, ?_, ?_, ?_, ?_⟩
  · intro id info h
    simp only [Components.indexById, h]
  · intro id h
    simp only [Components.indexById, h]
  · intro i info h
    simp only [Components.indexByIdx, h]
  · intro i h
    simp only [Components.indexByIdx, h]
  · intro t info h
    simp only [Components.indexByTypeId, h]
  · intro t h
    simp only [Components.indexByTypeId, h]

/-- Witness for C5 at concrete inputs: indexing the registered `A` returns
its record; indexing the empty registry panics (`none`). -/
theorem components_index_panics_iff_invalid_witness :
    (regAfterA.get ⟨⟨0, 1⟩⟩ = some (Components.mkInfo descA ⟨0, 1⟩) ∧
      regAfterA.indexById ⟨⟨0, 1⟩⟩ = some (Components.mkInfo descA ⟨0, 1⟩)) ∧
      (Components.new.get ⟨⟨0, 1⟩⟩ = none ∧
        Components.new.indexById ⟨⟨0, 1⟩⟩ = none) ∧
      (Components.new.get_by_type_id 1 = none ∧
        Components.new.indexByTypeId 1 = none) := by
  refine ⟨⟨by decide, ?_⟩, ⟨rfl, ?_⟩, ⟨rfl, ?_⟩⟩
  · exact (components_index_panics_iff_invalid regAfterA).1 _ _ (by decide)
  · exact (components_index_panics_iff_invalid Components.new).2.1 _ rfl
  · exact (components_index_panics_iff_invalid Components.new).2.2.2.2.2 _ rfl

/-- C6: `Components::remove` on a valid id detaches and returns exactly the
stored record, leaves the id dead, and touches no other component's record
(no cascading); on an invalid id it returns `none` with the registry
unchanged. -/
theorem components_remove_contract :
    ∀ (c : Components) (id : ComponentId),
      (∀ info c2, c.remove id = (some info, c2) →
        c.get id = some info ∧ c2.get id = none ∧
          ∀ id2, id2 ≠ id → c2.get id2 = c.get id2) ∧
      (c.get id = none → c.remove id = (none, c)) := by
  intro c id
  constructor
  · intro info c2 h
    have h1 := (Components.remove_some_inv h).1
    refine ⟨?_, SlotMap.remove_get_self h1, ?_⟩
    · show c.infos.get id.key = some info
      rw [← SlotMap.remove_fst, h1]
    · intro id2 hne
      show c2.infos.get id2.key = c.infos.get id2.key
      refine SlotMap.remove_get_other h1 ?_
      intro he
      exact hne (congrArg ComponentId.mk he)
  · exact Components.remove_noop_of_get_none

/-- Witness for C6: removing the registered `A` returns its record and
leaves other ids untouched; removing from the empty registry returns `none`
and the same registry. -/
theorem components_remove_contract_witness :
    regAfterA.remove ⟨⟨0, 1⟩⟩ =
        (some (Components.mkInfo descA ⟨0, 1⟩), regRemovedA) ∧
      (regAfterA.get ⟨⟨0, 1⟩⟩ = some (Components.mkInfo descA ⟨0, 1⟩) ∧
        regRemovedA.get ⟨⟨0, 1⟩⟩ = none ∧
        regRemovedA.get ⟨⟨5, 1⟩⟩ = regAfterA.get ⟨⟨5, 1⟩⟩) ∧
      (Components.new.get ⟨⟨0, 1⟩⟩ = none ∧
        Components.new.remove ⟨⟨0, 1⟩⟩ = (none, Components.new)) := by
  have h := (components_remove_contract regAfterA ⟨⟨0, 1⟩⟩).1
    (Components.mkInfo descA ⟨0, 1⟩) regRemovedA (by decide)
  exact ⟨by decide, ⟨h.1, h.2.1, h.2.2 ⟨⟨5, 1⟩⟩ (by decide)⟩,
    ⟨rfl, (components_remove_contract Components.new ⟨⟨0, 1⟩⟩).2 rfl⟩⟩

/-- C7: in every reachable world, a component's member-of set holds exactly
the indices of the archetypes whose composition contains it; and in the
concrete scenario of `tests::component_member_of` the member-of sizes are
3/2/1 after setup, 2/1 after removing `C`, and 1 after removing `B`. -/
theorem member_of_matches_archetypes :
    (∀ w : World, w.Reachable →
      ∀ idx info, w.components.get_by_index idx = some info →
        ∀ a : ArchetypeIdx,
          a ∈ info.member_of ↔ ∃ S, lookupArch w.archetypes a = some S ∧ idx ∈ S) ∧
      memberOfSize scenarioW1 0 = some 3 ∧ memberOfSize scenarioW1 1 = some 2 ∧
      memberOfSize scenarioW1 2 = some 1 ∧ memberOfSize scenarioW2 0 = some 2 ∧
      memberOfSize scenarioW2 1 = some 1 ∧ memberOfSize scenarioW3 0 = some 1 := by
  refine ⟨?_, by decide, by decide, by decide, by decide, by decide, by decide⟩
  intro w hr
  exact (World.reachable_Inv hr).2.2.2.2

/-- Witness for C7: in the scenario world after setup, component `A`
(dense index 0) is a member of archetype 1 iff archetype 1's composition
contains index 0. -/
theorem member_of_matches_archetypes_witness :
    scenarioW1.Reachable ∧
      scenarioW1.components.get_by_index 0 =
        some { name := "A", id := ⟨⟨0, 1⟩⟩, type_id := some 1, layout := ⟨0, 1⟩,
               drop := 0, mutability := true, insert_events := [],
               remove_events := [], member_of := [1, 2, 3] } ∧
      ((1 : ArchetypeIdx) ∈ ([1, 2, 3] : List ArchetypeIdx) ↔
        ∃ S, lookupArch scenarioW1.archetypes 1 = some S ∧ (0 : Nat) ∈ S) := by
  have hreach : scenarioW1.Reachable :=
    World.reachable_applyOps World.Reachable.new scenarioSetupOps
  exact ⟨hreach, by decide,
    member_of_matches_archetypes.1 scenarioW1 hreach 0
      { name := "A", id := ⟨⟨0, 1⟩⟩, type_id := some 1, layout := ⟨0, 1⟩,
        drop := 0, mutability := true, insert_events := [],
        remove_events := [], member_of := [1, 2, 3] } (by decide) 1⟩

/-- C8: `Components::add` hits its `panic!("too many components")` abort
(modelled as `none`) exactly when the id allocator is exhausted (no freed
slot and no index left) and deduplication does not short-circuit; it never
returns an error value or a wrapped-around id. -/
theorem components_add_fatal_on_exhaustion (c : Components)
    (desc : ComponentDescriptor) :
    c.add desc = none ↔
      ((match desc.type_id with
        | some tid => lookupTid c.by_type_id tid = none
        | none => True) ∧
        c.infos.freeList = [] ∧ keyCapacity ≤ c.infos.slots.length) :=
  Components.add_eq_none_iff c desc

/-- C9: after removing a component registered under a static type key, that
key no longer resolves, and re-adding a descriptor with the same key
allocates a fresh component: `is_fresh = true` and the new id never equals
the removed one. -/
theorem remove_then_readd_fresh :
    ∀ (c : Components) (id : ComponentId) (info : ComponentInfo) (tid : TypeId),
      c.get id = some info → info.type_id = some tid →
      (c.remove id).1 = some info ∧
      (c.remove id).2.get_by_type_id tid = none ∧
      (∀ (desc : ComponentDescriptor) (id2 : ComponentId) (fresh : Bool)
        (c3 : Components), desc.type_id = some tid →
        (c.remove id).2.add desc = some ((id2, fresh), c3) →
        fresh = true ∧ id2 ≠ id) := by
  intro c id info tid hg hti
  have hrm : c.remove id = (some info, (c.remove id).2) := by
    have h1 : (c.remove id).1 = some info := by
      rw [Components.remove_fst_eq, SlotMap.remove_fst]
      exact hg
    rw [← h1]
  obtain ⟨h1, hbt⟩ := Components.remove_some_inv hrm
  have hlookup : lookupTid (c.remove id).2.by_type_id tid = none := by
    rcases hbt with ⟨tid2, hti2, hb⟩ | ⟨hti2, hb⟩
    · rw [hti] at hti2
      injection hti2 with hti2
      subst hti2
      rw [hb]
      exact lookupTid_removeTid_self _ _
    · rw [hti] at hti2
      exact absurd hti2 (by simp)
  refine ⟨by rw [hrm], ?_, ?_⟩
  · simp only [Components.get_by_type_id, hlookup]
  · intro desc id2 fresh c3 ht hadd
    rcases Components.add_inv hadd with ⟨tid2, ht2, hl2, hf, hc⟩ |
      ⟨tid2, infos2, ht2, hl2, hi, hf, hc⟩ | ⟨infos2, ht2, hi, hf, hc⟩
    · rw [ht] at ht2
      injection ht2 with ht2
      subst ht2
      rw [hlookup] at hl2
      exact absurd hl2 (by simp)
    · refine ⟨hf, ?_⟩
      have hstale : (c.remove id).2.infos.stale id.key := SlotMap.remove_stale h1
      rcases SlotMap.insert_with_cases hi with ⟨rest, hfree, hgenk, hm⟩ |
        ⟨hfree, hidx, hgenk, hlt, hm⟩
      · intro he
        subst he
        have h2 := hstale.2
        rw [hgenk] at h2
        exact absurd h2 (Nat.lt_irrefl _)
      · intro he
        subst he
        have h2 := hstale.1
        rw [hidx] at h2
        exact absurd h2 (Nat.lt_irrefl _)
    · rw [ht] at ht2
      exact absurd ht2 (by simp)

/-- Witness for C9: after removing `A`, type key 1 no longer resolves, and
re-adding `A` yields the fresh id (0, 2) ≠ (0, 1). -/
theorem remove_then_readd_fresh_witness :
    regAfterA.get ⟨⟨0, 1⟩⟩ = some (Components.mkInfo descA ⟨0, 1⟩) ∧
      (Components.mkInfo descA ⟨0, 1⟩).type_id = some 1 ∧
      (regAfterA.remove ⟨⟨0, 1⟩⟩).1 = some (Components.mkInfo descA ⟨0, 1⟩) ∧
      (regAfterA.remove ⟨⟨0, 1⟩⟩).2.get_by_type_id 1 = none ∧
      descA.type_id = some 1 ∧
      (regAfterA.remove ⟨⟨0, 1⟩⟩).2.add descA =
        some (((⟨⟨0, 2⟩⟩ : ComponentId), true), regReaddedA) ∧
      (true = true ∧ (⟨⟨0, 2⟩⟩ : ComponentId) ≠ ⟨⟨0, 1⟩⟩) := by
  have h := remove_then_readd_fresh regAfterA ⟨⟨0, 1⟩⟩
    (Components.mkInfo descA ⟨0, 1⟩) 1 (by decide) rfl
  exact ⟨by decide, rfl, h.1, h.2.1, rfl, by decide,
    h.2.2 descA ⟨⟨0, 2⟩⟩ true regReaddedA rfl (by decide)⟩

/-- C10: in every registry state reachable by `add`/`remove` from the empty
registry, every `by_type_id` entry points at a live component whose record
carries exactly that type key; hence the `unwrap_unchecked` inside
`get_by_type_id` never reaches its failure branch, and `get_by_type_id`
returns a record exactly when the key is registered and `none` otherwise. -/
theorem get_by_type_id_safe :
    ∀ c : Components, c.Reachable →
      (∀ tid id, lookupTid c.by_type_id tid = some id →
        ∃ info, c.get id = some info ∧ info.type_id = some tid) ∧
      (∀ tid, (lookupTid c.by_type_id tid).isSome = (c.get_by_type_id tid).isSome) ∧
      (∀ tid, lookupTid c.by_type_id tid = none → c.get_by_type_id tid = none) := by
  intro c hr
  have hinv := (Components.reachable_WF_typeIdInv hr).2
  refine ⟨hinv, ?_, ?_⟩
  · intro tid
    cases hl : lookupTid c.by_type_id tid with
    | none =>
      simp only [Components.get_by_type_id, hl]
      rfl
    | some id =>
      obtain ⟨info, hg, hti⟩ := hinv tid id hl
      simp only [Components.get_by_type_id, hl, hg]
      rfl
  · intro tid hl
    simp only [Components.get_by_type_id, hl]

/-- Witness for C10 at a concrete reachable registry: in the registry with
only `A`, the key lookup and the checked fetch agree, and an unregistered
key yields `none`. -/
theorem get_by_type_id_safe_witness :
    regAfterA.Reachable ∧
      (lookupTid regAfterA.by_type_id 1).isSome =
        (regAfterA.get_by_type_id 1).isSome ∧
      lookupTid regAfterA.by_type_id 2 = none ∧
      regAfterA.get_by_type_id 2 = none := by
  have hreach : regAfterA.Reachable :=
    Components.Reachable.step (RegOp.add descA) Components.Reachable.new
  have h := get_by_type_id_safe regAfterA hreach
  exact ⟨hreach, h.2.1 1, by decide, h.2.2 2 (by decide)⟩

end Evenio
